import Mathlib

/-
Verification development for the parallel-ufunc thread dispatcher of
`parallel_vectorize.py` (llvmpy).

The Python file is a code generator: `ParallelUFunc.body` emits the dispatcher
(partitioning `[0, N)` into per-worker workqueues, spawning `num_thread`
workers, joining them and auditing the sum of completed counters), and
`UFuncCore.body` emits the worker routine (Phase A: drain the own workqueue;
Phase B: work stealing from peers).  We embed the *generated* runtime logic:

* the dispatcher arithmetic (`ChunkSize`, `num_thread`, the initial queue
  ranges written by `_populate_workqueues`) as pure functions;
* the worker routine as a small-step interleaving transition system
  whose atomic steps are exactly the lock-protected critical sections of
  the generated code (lock acquisition is a separate step, so lock-holding
  states are observable); `claims` and `execd` are history (ghost) fields
  recording which queue each index was claimed from and which indices were
  handed to `_do_work`.

Two distinct bounds govern the worker system.  Only the effective
`num_thread` worker threads are created and only the workqueues
`[0, num_thread)` are initialized, but the Phase B stealing scan iterates
`for i in range(common.num_thread)` — and `ParallelUFunc.body` stores
`common.num_thread` at line 129, BEFORE the small-N overwrite at line 143,
so the scan bound is always `ThreadCount`.  The transition function
therefore takes both bounds, the initial state takes a function `g` giving
the arbitrary (uninitialized stack) contents of the slots `≥ num_thread`,
and `Reach` uses scan bound `T`.  When `num_thread = ThreadCount` (that is,
`N ≥ ThreadCount`, or `N = 0`) the two bounds agree and the protocol is
verified by the inductive invariant `DInv` below; when
`0 < N < ThreadCount` the scan reads the uninitialized queues, and concrete
runs below exhibit the resulting misbehaviors.

Machine integers: `next`, `last`, `item`, `completed` are `intp` in the
source; iteration counts are bounded by `N = dimensions[0] ≥ 0`, far from
overflow for any dispatch that fits in memory, so they are modelled as `Int`
(indices) and `Nat` (counters) without wrap-around.
-/

/-- One workqueue: the half-open range `[next, last)` of iteration indices
plus a binary spinlock, mirroring the `WorkQueue` CStruct
(`next`/`last` are `intp`, `lock` is an `int` used as 0/1). -/
structure WorkQueue where
  next : Int
  last : Int
  lock : Bool
deriving DecidableEq

/-- Program counter of one generated worker thread (`UFuncCore.body`).
Each constructor is a point between two atomic actions of the worker:

* `aLock`        : Phase A (`_do_workqueue`), about to spin on the own lock;
* `aCrit`        : Phase A, own lock held, about to run the critical section
                   `item := next; next := item+1; last := last` and unlock;
* `aWork item`   : Phase A, lock released, about to run `_do_work(item)` and
                   increment `completed`;
* `bLoop cont`   : Phase B (`_do_work_stealing`), at the outer loop condition
                   with `steal_continue = cont`;
* `bFor cont j`  : Phase B, in `_do_work_stealing_innerloop` at peer index `j`;
* `bAcq cont j`  : about to spin on peer `j`'s lock (`_do_work_stealing_check`);
* `bCrit cont j` : peer `j`'s lock held, about to test `next < last` and either
                   steal (decrement `last`) or give up, then unlock;
* `bWork j item` : lock released after stealing `item` from queue `j`, about to
                   run `_do_work(item)`, increment `completed` and set
                   `steal_continue := 1`;
* `wDone`        : the worker routine returned. -/
inductive PC where
  | aLock : PC
  | aCrit : PC
  | aWork : Int → PC
  | bLoop : Bool → PC
  | bFor : Bool → Nat → PC
  | bAcq : Bool → Nat → PC
  | bCrit : Bool → Nat → PC
  | bWork : Nat → Int → PC
  | wDone : PC
deriving DecidableEq

/-- Shared state of one dispatch: the workqueue array, each worker's program
counter, the per-worker `completed` counters (the `Context` records), and two
history fields: `claims` lists, in order, each claim event as
`(source queue, index)`; `execd` lists every index passed to `_do_work`. -/
structure DispatchState where
  workqueues : Nat → WorkQueue
  pcs : Nat → PC
  completed : Nat → Nat
  claims : List (Nat × Int)
  execd : List Int

/-- The `ChunkSize` computed by `ParallelUFunc.body`: `N / ThreadCount`
(integer division), bumped to 1 when it is 0. -/
def ChunkSize (N T : Nat) : Nat :=
  if N / T = 0 then 1 else N / T

/-- Effective `num_thread` as computed by `ParallelUFunc.body`: `ThreadCount`,
overwritten with `N` when `N / ThreadCount = 0`. -/
def num_thread (N T : Nat) : Nat :=
  if N / T = 0 then N else T

/-- Initial `next` of workqueue `i` as written by `_populate_workqueues`:
`i * ChunkSize`. -/
def init_next (N T i : Nat) : Int :=
  (i * ChunkSize N T : Nat)

/-- Initial `last` of workqueue `i` as written by `_populate_workqueues`:
`(i+1) * ChunkSize`, overwritten with `N` for the last worker. -/
def init_last (N T i : Nat) : Int :=
  if i = num_thread N T - 1 then (N : Int) else ((i + 1) * ChunkSize N T : Nat)

/-- Initial contents of workqueue `i` (lock free). -/
def initQueue (N T i : Nat) : WorkQueue :=
  ⟨init_next N T i, init_last N T i, false⟩

/-- State right after the dispatcher populated the workqueues and contexts and
created the `num_thread` workers: every worker starts in Phase A with
`completed = 0`, no claims, nothing executed.  The `workqueues` array has
`ThreadCount` slots but `_populate_workqueues` initializes only
`[0, num_thread)`; `g i` is the arbitrary (uninitialized stack) content of
slot `i ≥ num_thread`, read as a `WorkQueue` record. -/
def initState (N T : Nat) (g : Nat → WorkQueue) : DispatchState :=
  { workqueues := fun i => if i < num_thread N T then initQueue N T i else g i
    pcs := fun _ => PC.aLock
    completed := fun _ => 0
    claims := []
    execd := [] }

/-- One atomic action of worker `w` (`none` = `w` cannot act: it is out of
range, finished, or spinning on a held lock).  The branches mirror
`UFuncCore._do_workqueue`, `_do_work_stealing`, `_do_work_stealing_innerloop`
and `_do_work_stealing_check` line by line.  `nt` is the number of worker
threads actually created (the dispatcher's effective `num_thread`), while
`scanN` is `common.num_thread`, the bound of the Phase B for-loop
(`for i in range(common.num_thread)`).  `ParallelUFunc.body` stores
`common.num_thread` at line 129, BEFORE the small-N overwrite of the local
`num_thread` at line 143, so in the generated code `scanN` is always
`ThreadCount`: for `0 < N < ThreadCount` the scan visits the uninitialized
queues `[num_thread, ThreadCount)`. -/
def ufunc_worker_step (nt scanN : Nat) (s : DispatchState) (w : Nat) :
    Option DispatchState :=
  if w < nt then
    match s.pcs w with
    | PC.aLock =>
        -- workqueue.Lock(): spin until the cmpxchg 0 → 1 succeeds
        if (s.workqueues w).lock then none
        else some { s with
          workqueues := Function.update s.workqueues w
            ⟨(s.workqueues w).next, (s.workqueues w).last, true⟩
          pcs := Function.update s.pcs w PC.aCrit }
    | PC.aCrit =>
        -- item := next; next := item + 1; last := last; Unlock();
        -- if item >= last: break (to Phase B) else _do_work
        if (s.workqueues w).last ≤ (s.workqueues w).next then
          some { s with
            workqueues := Function.update s.workqueues w
              ⟨(s.workqueues w).next + 1, (s.workqueues w).last, false⟩
            pcs := Function.update s.pcs w (PC.bLoop true) }
        else
          some { s with
            workqueues := Function.update s.workqueues w
              ⟨(s.workqueues w).next + 1, (s.workqueues w).last, false⟩
            pcs := Function.update s.pcs w (PC.aWork ((s.workqueues w).next))
            claims := s.claims ++ [(w, (s.workqueues w).next)] }
    | PC.aWork item =>
        -- _do_work(common, item, tid); completed += 1
        some { s with
          pcs := Function.update s.pcs w PC.aLock
          completed := Function.update s.completed w (s.completed w + 1)
          execd := s.execd ++ [item] }
    | PC.bLoop cont =>
        -- while steal_continue != 0: steal_continue := 0; innerloop
        if cont then some { s with pcs := Function.update s.pcs w (PC.bFor false 0) }
        else some { s with pcs := Function.update s.pcs w PC.wDone }
    | PC.bFor cont j =>
        -- for i in range(common.num_thread): if i != tid: check(i)
        if scanN ≤ j then some { s with pcs := Function.update s.pcs w (PC.bLoop cont) }
        else if j = w then
          some { s with pcs := Function.update s.pcs w (PC.bFor cont (j + 1)) }
        else some { s with pcs := Function.update s.pcs w (PC.bAcq cont j) }
    | PC.bAcq cont j =>
        -- otherqueue.Lock()
        if (s.workqueues j).lock then none
        else some { s with
          workqueues := Function.update s.workqueues j
            ⟨(s.workqueues j).next, (s.workqueues j).last, true⟩
          pcs := Function.update s.pcs w (PC.bCrit cont j) }
    | PC.bCrit cont j =>
        -- if next < last: last -= 1; item := last; Unlock() ... else Unlock()
        if (s.workqueues j).next < (s.workqueues j).last then
          some { s with
            workqueues := Function.update s.workqueues j
              ⟨(s.workqueues j).next, (s.workqueues j).last - 1, false⟩
            pcs := Function.update s.pcs w (PC.bWork j ((s.workqueues j).last - 1))
            claims := s.claims ++ [(j, (s.workqueues j).last - 1)] }
        else
          some { s with
            workqueues := Function.update s.workqueues j
              ⟨(s.workqueues j).next, (s.workqueues j).last, false⟩
            pcs := Function.update s.pcs w (PC.bFor cont (j + 1)) }
    | PC.bWork j item =>
        -- _do_work(common, item, tid); completed += 1; steal_continue := 1
        some { s with
          pcs := Function.update s.pcs w (PC.bFor true (j + 1))
          completed := Function.update s.completed w (s.completed w + 1)
          execd := s.execd ++ [item] }
    | PC.wDone => none
  else none

/-- Interleaving step: one of the `nt` workers performs one atomic action,
with Phase B scan bound `scanN`. -/
def SysStep (nt scanN : Nat) (s s' : DispatchState) : Prop :=
  ∃ w, ufunc_worker_step nt scanN s w = some s'

/-- Reachability from the dispatch's initial state, with `g` the contents of
the uninitialized workqueue slots.  The scan bound is `T` — the generated
code's `common.num_thread = ThreadCount`, stored at line 129 before the
line-143 overwrite — while only the effective `num_thread N T` workers were
created. -/
def Reach (N T : Nat) (g : Nat → WorkQueue) (s : DispatchState) : Prop :=
  Relation.ReflTransGen (SysStep (num_thread N T) T) (initState N T g) s

/-- No worker can act any more. -/
def Terminal (nt scanN : Nat) (s : DispatchState) : Prop :=
  ∀ w, w < nt → ufunc_worker_step nt scanN s w = none

/-- Run a concrete schedule (list of worker ids), failing if a scheduled
worker cannot act. -/
def runSched (nt scanN : Nat) (s : DispatchState) : List Nat → Option DispatchState
  | [] => some s
  | w :: l =>
      match ufunc_worker_step nt scanN s w with
      | some s' => runSched nt scanN s' l
      | none => none

/-- Remaining items of a queue, as a multiset of indices. -/
def qItems (q : WorkQueue) : Multiset Int :=
  (Finset.Ico q.next q.last).val

/-- Indices claimed but not yet handed to `_do_work` by a worker at this pc. -/
def inflight : PC → Multiset Int
  | PC.aWork item => {item}
  | PC.bWork _ item => {item}
  | _ => 0

/-- Whether a pc is past Phase A (the own queue has been drained). -/
def inPhaseB : PC → Bool
  | PC.aLock => false
  | PC.aCrit => false
  | PC.aWork _ => false
  | _ => true

/-- Worker `w` at pc `pc` holds the lock of queue `i`. -/
def holdsLock : PC → Nat → Nat → Prop
  | PC.aCrit, w, i => i = w
  | PC.bCrit _ j, _, i => i = j
  | _, _, _ => False

/-- A queue with no remaining items. -/
def emptyQ (q : WorkQueue) : Prop :=
  q.last ≤ q.next

/-- Boundary `i * ChunkSize` of the initial partition, capped with `N` from
index `num_thread` on; `bnd i` and `bnd (i+1)` delimit worker `i`'s range. -/
def bnd (N T i : Nat) : Int :=
  if i < num_thread N T then init_next N T i else (N : Int)

/-- The `for_range(num_thread)` loop of `_populate_workqueues`: write
`next := i * ChunkSize`, `last := (i+1) * ChunkSize`, `lock := 0` into slot
`i` of the `workqueues` array for every `i < nt`. -/
def populate_loop (C : Int) (qs : List WorkQueue) (nt : Nat) : List WorkQueue :=
  (List.range nt).foldl
    (fun acc i => acc.set i ⟨(i : Int) * C, ((i : Int) + 1) * C, false⟩) qs

/-- Model of `ParallelUFunc._populate_workqueues`: run the loop, then overwrite
`workqueues[num_thread - 1].last` with `N`.  The subtraction `num_thread - 1`
is on the C `int` value, so it is modelled on `Int`; indexing the
`ThreadCount`-element array outside `[0, ThreadCount)` is an out-of-bounds
access, modelled as `none`. -/
def populate_workqueues (qs : List WorkQueue) (N C : Int) (nt : Nat) :
    Option (List WorkQueue) :=
  let qs1 := populate_loop C qs nt
  let idx : Int := (nt : Int) - 1
  if 0 ≤ idx ∧ idx < (qs1.length : Int) then
    match qs1[idx.toNat]? with
    | some q => some (qs1.set idx.toNat ⟨q.next, N, q.lock⟩)
    | none => none
  else none

/-- Multiset of all indices still sitting unclaimed in the workqueues. -/
def queuedItems (n : Nat) (s : DispatchState) : Multiset Int :=
  Finset.sum (Finset.range n) (fun i => qItems (s.workqueues i))

/-- Multiset of all claimed-but-not-yet-executed indices. -/
def inflightItems (n : Nat) (s : DispatchState) : Multiset Int :=
  Finset.sum (Finset.range n) (fun w => inflight (s.pcs w))

/-- Sum of the per-worker `completed` counters (over the live workers). -/
def totalCompleted (n : Nat) (s : DispatchState) : Nat :=
  Finset.sum (Finset.range n) (fun w => s.completed w)

/-- The global inductive invariant of one dispatch: partitioning of `[0, N)`
into executed, in-flight and queued indices, the claim history's bookkeeping,
monotonicity of queue bounds inside the initially assigned ranges, the
phase-dependent shape of each queue, the scan bookkeeping of Phase B, and the
lock/holder correspondence. -/
structure DInv (N T : Nat) (s : DispatchState) : Prop where
  partEq : (s.execd : Multiset Int) + inflightItems (num_thread N T) s
      + queuedItems (num_thread N T) s = (Finset.Ico (0 : Int) (N : Int)).val
  claimsEq : ((s.claims.map Prod.snd) : Multiset Int)
      = (s.execd : Multiset Int) + inflightItems (num_thread N T) s
  claimsSrc : ∀ p ∈ s.claims, p.1 < num_thread N T ∧
      init_next N T p.1 ≤ p.2 ∧ p.2 < init_last N T p.1
  qmonoLo : ∀ i, i < num_thread N T → init_next N T i ≤ (s.workqueues i).next
  qmonoHi : ∀ i, i < num_thread N T → (s.workqueues i).last ≤ init_last N T i
  phaseA : ∀ w, w < num_thread N T → inPhaseB (s.pcs w) = false →
      (s.workqueues w).next ≤ (s.workqueues w).last
  phaseB : ∀ w, w < num_thread N T → inPhaseB (s.pcs w) = true →
      (s.workqueues w).next = (s.workqueues w).last + 1
  acqBound : ∀ w, w < num_thread N T → ∀ c j,
      (s.pcs w = PC.bAcq c j ∨ s.pcs w = PC.bCrit c j) → j < num_thread N T ∧ j ≠ w
  scanEmpty : ∀ w, w < num_thread N T → ∀ j,
      (s.pcs w = PC.bFor false j ∨ s.pcs w = PC.bAcq false j ∨
        s.pcs w = PC.bCrit false j) →
      ∀ j', j' < j → j' ≠ w → emptyQ (s.workqueues j')
  loopEmpty : ∀ w, w < num_thread N T → s.pcs w = PC.bLoop false →
      ∀ j', j' < num_thread N T → j' ≠ w → emptyQ (s.workqueues j')
  doneAll : ∀ w, w < num_thread N T → s.pcs w = PC.wDone →
      ∀ i, i < num_thread N T → emptyQ (s.workqueues i)
  lockIff : ∀ i, i < num_thread N T →
      ((s.workqueues i).lock = true ↔
        ∃ u, u < num_thread N T ∧ holdsLock (s.pcs u) u i)
  lockUniq : ∀ i u u', u < num_thread N T → u' < num_thread N T →
      holdsLock (s.pcs u) u i → holdsLock (s.pcs u') u' i → u = u'
  compSum : totalCompleted (num_thread N T) s = s.execd.length

/-- Number of unclaimed indices left in the workqueues. -/
def remWork (n : Nat) (s : DispatchState) : Nat :=
  Finset.sum (Finset.range n)
    (fun i => ((s.workqueues i).last - (s.workqueues i).next).toNat)

/-- Rank of one worker's control position: every action that does not claim
an index strictly decreases it. -/
def pcMeasure (n : Nat) : PC → Nat
  | PC.aWork _ => 4 * n + 8
  | PC.aLock => 4 * n + 7
  | PC.aCrit => 4 * n + 6
  | PC.bLoop true => 4 * n + 5
  | PC.bLoop false => 1
  | PC.bFor c j => (if c then 4 * n + 3 else 0) + (n - j) * 4 + 3
  | PC.bAcq c j => (if c then 4 * n + 3 else 0) + (n - j) * 4 + 2
  | PC.bCrit c j => (if c then 4 * n + 3 else 0) + (n - j) * 4 + 1
  | PC.bWork j _ => (4 * n + 3) + (n - j) * 4 + 10
  | PC.wDone => 0

/-- Sum of all workers' control ranks. -/
def sysMeasure (n : Nat) (s : DispatchState) : Nat :=
  Finset.sum (Finset.range n) (fun w => pcMeasure n (s.pcs w))

/-- The post-join audit accumulator of `ParallelUFunc.body`: the generated
code unrolls `for t in range(ThreadCount)` — over ALL `ThreadCount` context
slots, not only the `num_thread` slots that `_populate_context` initialized.
`ctx t` is the value of `contexts[t].completed` at join time. -/
def total_completed (T : Nat) (ctx : Nat → Int) : Int :=
  Finset.sum (Finset.range T) ctx

/-- The audit's decision in `ParallelUFunc.body`: reach `unreachable` (abort)
iff the accumulated sum differs from `N`. -/
def audit_aborts (T : Nat) (N : Int) (ctx : Nat → Int) : Prop :=
  total_completed T ctx ≠ N

/-- Context array contents after a `ThreadCount = 4, N = 1` dispatch:
worker 0 completed its single iteration; slots 1..3 were never initialized
(`_populate_context` loops only over `num_thread = 1` slots) and hold stack
garbage, here 5, 0 and 0. -/
def c3ctx : Nat → Int :=
  fun t => if t = 0 then 1 else if t = 1 then 5 else 0

/-- One possible content of the uninitialized workqueue slots: every slot
reads as an empty, unlocked queue (the most benign stack garbage). -/
def gZero : Nat → WorkQueue :=
  fun _ => ⟨0, 0, false⟩

/-- Possible uninitialized content for a `ThreadCount = 2, N = 1` dispatch:
slot 1 reads as `next = 5, last = 6, lock = 0` — one phantom work item. -/
def gSteal : Nat → WorkQueue :=
  fun i => if i = 1 then ⟨5, 6, false⟩ else ⟨0, 0, false⟩

/-- Possible uninitialized content: slot 1 reads as `next = 0, last = 1,
lock = 0` — a phantom copy of index 0. -/
def gDup : Nat → WorkQueue :=
  fun i => if i = 1 then ⟨0, 1, false⟩ else ⟨0, 0, false⟩

/-- Possible uninitialized content: slot 1 reads with a nonzero lock word, on
which the `Lock()` cmpxchg `0 → 1` can never succeed. -/
def gLock : Nat → WorkQueue :=
  fun i => if i = 1 then ⟨0, 0, true⟩ else ⟨0, 0, false⟩

/-- Schedule of a complete `N = 1, ThreadCount = 1` dispatch: worker 0 pops
index 0, executes it, takes the terminating pop, scans (no peers) and exits. -/
def sched11 : List Nat :=
  List.replicate 9 0

/-- Final state of the `sched11` run. -/
def run11 : DispatchState :=
  (runSched (num_thread 1 1) 1 (initState 1 1 gZero) sched11).getD
    (initState 1 1 gZero)

/-- Prefix of `sched11` stopping right after worker 0's terminating pop:
queue 0 is lock-free with `next = 2`, `last = 1`. -/
def sched11a : List Nat :=
  List.replicate 5 0

/-- State after the `sched11a` prefix. -/
def run11a : DispatchState :=
  (runSched (num_thread 1 1) 1 (initState 1 1 gZero) sched11a).getD
    (initState 1 1 gZero)

/-- Schedule of a complete `N = 2, ThreadCount = 4` dispatch (so
`num_thread = 2`, one iteration per worker; the scan bound is the stored
`common.num_thread = 4`, and the uninitialized queues 2 and 3 here read as
empty unlocked queues) in which worker 0 executes its own iteration, steals
and executes worker 1's iteration, scans the two uninitialized queues and
exits before worker 1 gets to run; worker 1 finds everything already drained
and exits with `completed = 0`. -/
def sched24 : List Nat :=
  List.replicate 31 0 ++ List.replicate 15 1

/-- Final state of the `sched24` run: `completed = [2, 0]`. -/
def run24 : DispatchState :=
  (runSched (num_thread 2 4) 4 (initState 2 4 gZero) sched24).getD
    (initState 2 4 gZero)

/-- Schedule of a complete `N = 1, ThreadCount = 2` dispatch (so
`num_thread = 1`: worker 0 is the only thread, but the scan bound is the
stored `common.num_thread = 2`): worker 0 executes index 0, then scans the
uninitialized queue 1, "steals" whatever the garbage bounds offer, scans
once more and exits. -/
def sched12 : List Nat :=
  List.replicate 19 0

/-- Final state of the `sched12` run over garbage `gSteal`: worker 0 executed
index 0 and the phantom index 5 read from the uninitialized queue 1. -/
def run12 : DispatchState :=
  (runSched (num_thread 1 2) 2 (initState 1 2 gSteal) sched12).getD
    (initState 1 2 gSteal)

/-- Final state of the `sched12` run over garbage `gDup`: worker 0 executed
index 0 twice — once from its own queue and once from the phantom range
`[0, 1)` read from the uninitialized queue 1. -/
def run12d : DispatchState :=
  (runSched (num_thread 1 2) 2 (initState 1 2 gDup) sched12).getD
    (initState 1 2 gDup)

/-- Schedule of an `N = 1, ThreadCount = 2` dispatch over garbage `gLock`,
up to the point where worker 0 starts spinning on the nonzero garbage lock
word of the uninitialized queue 1. -/
def schedHang : List Nat :=
  List.replicate 8 0

/-- State in which worker 0 is blocked forever: it sits at the `Lock()` of
the uninitialized queue 1, whose lock word is nonzero and is never released
by anyone. -/
def runHang : DispatchState :=
  (runSched (num_thread 1 2) 2 (initState 1 2 gLock) schedHang).getD
    (initState 1 2 gLock)

theorem ChunkSize_pos (N T : Nat) : 1 ≤ ChunkSize N T := by
  unfold ChunkSize
  split
  · exact le_refl 1
  · rename_i h
    exact Nat.pos_of_ne_zero h

theorem num_thread_mul_le (N T : Nat) : num_thread N T * ChunkSize N T ≤ N := by
  unfold num_thread ChunkSize
  by_cases h : N / T = 0
  · simp [h]
  · simp only [h, if_neg h, if_false]
    calc T * (N / T) = N / T * T := Nat.mul_comm _ _
    _ ≤ N := Nat.div_mul_le_self N T

theorem num_thread_eq_zero_iff (N T : Nat) : num_thread N T = 0 ↔ N = 0 := by
  unfold num_thread
  by_cases h : N / T = 0
  · simp [h]
  · simp only [h, if_neg h, if_false]
    constructor
    · intro hT
      subst hT
      simp [Nat.div_zero] at h
    · intro hN
      subst hN
      simp [Nat.zero_div] at h

theorem bnd_mono (N T : Nat) : ∀ i, bnd N T i ≤ bnd N T (i + 1) := by
  intro i
  unfold bnd
  by_cases h1 : i + 1 < num_thread N T
  · have h0 : i < num_thread N T := by omega
    simp only [h1, h0, if_true]
    unfold init_next
    have : i * ChunkSize N T ≤ (i + 1) * ChunkSize N T :=
      Nat.mul_le_mul_right _ (by omega)
    exact_mod_cast this
  · by_cases h0 : i < num_thread N T
    · simp only [h1, h0, if_true, if_false]
      unfold init_next
      have hle : i * ChunkSize N T ≤ num_thread N T * ChunkSize N T :=
        Nat.mul_le_mul_right _ (by omega)
      have := le_trans hle (num_thread_mul_le N T)
      exact_mod_cast this
    · simp [h1, h0]

theorem bnd_monotone (N T : Nat) : Monotone (bnd N T) :=
  monotone_nat_of_le_succ (bnd_mono N T)

theorem bnd_zero (N T : Nat) (h : 1 ≤ num_thread N T) : bnd N T 0 = 0 := by
  unfold bnd init_next
  simp [h, Nat.lt_of_lt_of_le Nat.zero_lt_one h]

theorem bnd_top (N T : Nat) : bnd N T (num_thread N T) = (N : Int) := by
  unfold bnd
  simp

theorem init_next_eq_bnd (N T i : Nat) (h : i < num_thread N T) :
    init_next N T i = bnd N T i := by
  unfold bnd
  simp [h]

theorem init_last_eq_bnd (N T i : Nat) (h : i < num_thread N T) :
    init_last N T i = bnd N T (i + 1) := by
  unfold init_last bnd
  by_cases h1 : i = num_thread N T - 1
  · have h2 : ¬ (i + 1 < num_thread N T) := by omega
    rw [if_pos h1, if_neg h2]
  · have h2 : i + 1 < num_thread N T := by omega
    rw [if_neg h1, if_pos h2]
    unfold init_next
    rfl

theorem init_next_le_init_last (N T i : Nat) (h : i < num_thread N T) :
    init_next N T i ≤ init_last N T i := by
  rw [init_next_eq_bnd N T i h, init_last_eq_bnd N T i h]
  exact bnd_mono N T i

theorem init_next_nonneg (N T i : Nat) : 0 ≤ init_next N T i := by
  unfold init_next
  exact_mod_cast Nat.zero_le _

theorem init_last_le_N (N T i : Nat) (h : i < num_thread N T) :
    init_last N T i ≤ (N : Int) := by
  rw [init_last_eq_bnd N T i h]
  calc bnd N T (i + 1) ≤ bnd N T (num_thread N T) := bnd_monotone N T (by omega)
  _ = (N : Int) := bnd_top N T

theorem ico_disjoint_of_le {a b c d : Int} (h : b ≤ c) :
    Disjoint (Finset.Ico a b) (Finset.Ico c d) := by
  rw [Finset.disjoint_left]
  intro x hx hx'
  rw [Finset.mem_Ico] at hx hx'
  omega

theorem ico_val_telescope (a : Nat → Int) (hm : ∀ i, a i ≤ a (i + 1)) (n : Nat) :
    Finset.sum (Finset.range n) (fun i => (Finset.Ico (a i) (a (i + 1))).val)
      = (Finset.Ico (a 0) (a n)).val := by
  induction n with
  | zero => simp
  | succ n ih =>
      rw [Finset.sum_range_succ, ih]
      have h0n : a 0 ≤ a n := monotone_nat_of_le_succ hm (Nat.zero_le n)
      have hd : Disjoint (Finset.Ico (a 0) (a n)) (Finset.Ico (a n) (a (n + 1))) :=
        Finset.Ico_disjoint_Ico_consecutive _ _ _
      have hval : (Finset.Ico (a 0) (a n)).val + (Finset.Ico (a n) (a (n + 1))).val
          = ((Finset.Ico (a 0) (a n)).disjUnion (Finset.Ico (a n) (a (n + 1))) hd).val := rfl
      rw [hval, Finset.disjUnion_eq_union, Finset.Ico_union_Ico_eq_Ico h0n (hm n)]

theorem ico_biUnion_telescope (a : Nat → Int) (hm : ∀ i, a i ≤ a (i + 1)) (n : Nat) :
    (Finset.range n).biUnion (fun i => Finset.Ico (a i) (a (i + 1)))
      = Finset.Ico (a 0) (a n) := by
  induction n with
  | zero => simp
  | succ n ih =>
      rw [Finset.range_succ, Finset.biUnion_insert, ih]
      have h0n : a 0 ≤ a n := monotone_nat_of_le_succ hm (Nat.zero_le n)
      rw [Finset.union_comm, Finset.Ico_union_Ico_eq_Ico h0n (hm n)]

theorem init_qItems_partition (N T : Nat) :
    Finset.sum (Finset.range (num_thread N T)) (fun i => qItems (initQueue N T i))
      = (Finset.Ico (0 : Int) (N : Int)).val := by
  by_cases hn : num_thread N T = 0
  · have hN : N = 0 := (num_thread_eq_zero_iff N T).mp hn
    subst hN
    simp [hn]
  · have h1 : 1 ≤ num_thread N T := by omega
    have hcong : Finset.sum (Finset.range (num_thread N T))
        (fun i => qItems (initQueue N T i))
        = Finset.sum (Finset.range (num_thread N T))
        (fun i => (Finset.Ico (bnd N T i) (bnd N T (i + 1))).val) := by
      refine Finset.sum_congr rfl ?_
      intro i hi
      rw [Finset.mem_range] at hi
      unfold qItems initQueue
      rw [init_next_eq_bnd N T i hi, init_last_eq_bnd N T i hi]
    rw [hcong, ico_val_telescope (bnd N T) (bnd_mono N T) (num_thread N T),
        bnd_zero N T h1, bnd_top N T]

theorem sum_update_add {A : Type} {M : Type} [AddCommMonoid M] {n j : Nat} (hj : j < n)
    (f : Nat → A) (a : A) (g : A → M) :
    Finset.sum (Finset.range n) (fun i => g (Function.update f j a i)) + g (f j)
      = Finset.sum (Finset.range n) (fun i => g (f i)) + g a := by
  have hmem : j ∈ Finset.range n := Finset.mem_range.mpr hj
  rw [← Finset.add_sum_erase _ (fun i => g (Function.update f j a i)) hmem,
      ← Finset.add_sum_erase _ (fun i => g (f i)) hmem]
  have h1 : g (Function.update f j a j) = g a := by rw [Function.update_same]
  have h2 : Finset.sum ((Finset.range n).erase j) (fun i => g (Function.update f j a i))
      = Finset.sum ((Finset.range n).erase j) (fun i => g (f i)) := by
    refine Finset.sum_congr rfl ?_
    intro i hi
    rw [Function.update_noteq (Finset.ne_of_mem_erase hi)]
  rw [h1, h2]
  abel

theorem sum_update_eq {A : Type} {M : Type} [AddCancelCommMonoid M] {n j : Nat} (hj : j < n)
    (f : Nat → A) (a : A) (g : A → M) (hg : g a = g (f j)) :
    Finset.sum (Finset.range n) (fun i => g (Function.update f j a i))
      = Finset.sum (Finset.range n) (fun i => g (f i)) := by
  have h := sum_update_add hj f a g
  rw [hg] at h
  exact add_right_cancel h

theorem sum_update_unrelated {A : Type} {M : Type} [AddCommMonoid M] {n j : Nat}
    (f : Nat → A) (a : A) (g : A → M) (hj : ¬ j < n) :
    Finset.sum (Finset.range n) (fun i => g (Function.update f j a i))
      = Finset.sum (Finset.range n) (fun i => g (f i)) := by
  refine Finset.sum_congr rfl ?_
  intro i hi
  rw [Finset.mem_range] at hi
  rw [Function.update_noteq (by omega)]

theorem ico_val_cons_left (a b : Int) (h : a < b) :
    (Finset.Ico a b).val = a ::ₘ (Finset.Ico (a + 1) b).val := by
  have hset : Finset.Ico a b = insert a (Finset.Ico (a + 1) b) := by
    ext x
    rw [Finset.mem_insert, Finset.mem_Ico, Finset.mem_Ico]
    omega
  have hnot : a ∉ Finset.Ico (a + 1) b := by
    rw [Finset.mem_Ico]
    omega
  rw [hset, Finset.insert_val, Multiset.ndinsert_of_not_mem hnot]

theorem ico_val_cons_right (a b : Int) (h : a < b) :
    (Finset.Ico a b).val = (b - 1) ::ₘ (Finset.Ico a (b - 1)).val := by
  have hset : Finset.Ico a b = insert (b - 1) (Finset.Ico a (b - 1)) := by
    ext x
    rw [Finset.mem_insert, Finset.mem_Ico, Finset.mem_Ico]
    omega
  have hnot : b - 1 ∉ Finset.Ico a (b - 1) := by
    rw [Finset.mem_Ico]
    omega
  rw [hset, Finset.insert_val, Multiset.ndinsert_of_not_mem hnot]

theorem qItems_eq_zero_of_empty {q : WorkQueue} (h : emptyQ q) : qItems q = 0 := by
  unfold qItems
  unfold emptyQ at h
  rw [Finset.Ico_eq_empty (by omega)]
  rfl

theorem populate_loop_length (C : Int) (qs : List WorkQueue) (nt : Nat) :
    (populate_loop C qs nt).length = qs.length := by
  induction nt with
  | zero => rfl
  | succ k ih =>
      unfold populate_loop
      rw [List.range_succ, List.foldl_append]
      unfold populate_loop at ih
      simp [List.length_set, ih]

theorem populate_loop_get (C : Int) (qs : List WorkQueue) (nt i : Nat) :
    (populate_loop C qs nt)[i]? =
      if i < nt ∧ i < qs.length then some ⟨(i : Int) * C, ((i : Int) + 1) * C, false⟩
      else qs[i]? := by
  induction nt with
  | zero =>
      simp only [Nat.not_lt_zero, false_and, if_false]
      rfl
  | succ k ih =>
      unfold populate_loop
      rw [List.range_succ, List.foldl_append]
      unfold populate_loop at ih
      simp only [List.foldl_cons, List.foldl_nil]
      by_cases hik : i = k
      · subst hik
        by_cases hlen : i < qs.length
        · rw [List.getElem?_set_self
            (by show i < (populate_loop C qs i).length; rw [populate_loop_length]; omega)]
          simp [hlen]
        · rw [List.getElem?_set_self' ]
          rw [ih]
          simp only [hlen, and_false, if_false]
          have : qs[i]? = none := by
            rw [List.getElem?_eq_none_iff]
            omega
          simp [this]
      · rw [List.getElem?_set_ne (by omega), ih]
        by_cases h1 : i < k
        · simp only [h1, true_and]
          have : i < k + 1 := by omega
          simp [this]
        · have h2 : ¬ i < k + 1 := by omega
          simp [h1, h2]

theorem num_thread_le (N T : Nat) (hT : 1 ≤ T) : num_thread N T ≤ T := by
  unfold num_thread
  by_cases h : N / T = 0
  · simp only [h, if_pos rfl, if_true]
    by_cases hNT : N < T
    · omega
    · exfalso
      have : 1 ≤ N / T := Nat.one_le_div_iff (by omega) |>.mpr (by omega)
      omega
  · simp [h]

theorem populate_workqueues_eq (N T : Nat) (qs : List WorkQueue)
    (hlen : qs.length = T) (hT : 1 ≤ T) (hn1 : 1 ≤ num_thread N T) :
    ∃ out, populate_workqueues qs (N : Int) ((ChunkSize N T : Nat) : Int)
        (num_thread N T) = some out ∧
      out.length = T ∧
      (∀ i, i < num_thread N T → out[i]? = some (initQueue N T i)) := by
  have hnT : num_thread N T ≤ T := num_thread_le N T hT
  unfold populate_workqueues
  have hque : ∀ i, i < num_thread N T →
      (populate_loop ((ChunkSize N T : Nat) : Int) qs (num_thread N T))[i]? =
        some ⟨(i : Int) * (ChunkSize N T : Nat), ((i : Int) + 1) * (ChunkSize N T : Nat),
              false⟩ := by
    intro i hi
    rw [populate_loop_get]
    have : i < num_thread N T ∧ i < qs.length := by omega
    simp [this]
  have hlen1 : (populate_loop ((ChunkSize N T : Nat) : Int) qs (num_thread N T)).length
      = T := by rw [populate_loop_length, hlen]
  have hcond : (0 : Int) ≤ (num_thread N T : Int) - 1 ∧
      (num_thread N T : Int) - 1 <
        ((populate_loop ((ChunkSize N T : Nat) : Int) qs (num_thread N T)).length : Int) := by
    rw [hlen1]
    constructor <;> [omega; (push_cast; omega)]
  rw [if_pos hcond]
  have hidx : ((num_thread N T : Int) - 1).toNat = num_thread N T - 1 := by omega
  rw [hidx]
  rw [hque (num_thread N T - 1) (by omega)]
  refine ⟨_, rfl, ?_, ?_⟩
  · rw [List.length_set, hlen1]
  · intro i hi
    by_cases hil : i = num_thread N T - 1
    · subst hil
      rw [List.getElem?_set_self (by rw [hlen1]; omega)]
      unfold initQueue init_next init_last
      simp only [if_pos rfl]
      push_cast
      ring_nf
    · rw [List.getElem?_set_ne (by omega), hque i hi]
      unfold initQueue init_next init_last
      rw [if_neg hil]
      push_cast
      ring_nf

theorem reach_of_run (nt scanN : Nat) :
    ∀ (l : List Nat) (s s' : DispatchState),
      runSched nt scanN s l = some s' →
      Relation.ReflTransGen (SysStep nt scanN) s s' := by
  intro l
  induction l with
  | nil =>
      intro s s' h
      unfold runSched at h
      injection h with h
      subst h
      exact Relation.ReflTransGen.refl
  | cons w l ih =>
      intro s s' h
      unfold runSched at h
      cases hstep : ufunc_worker_step nt scanN s w with
      | none => rw [hstep] at h; cases h
      | some s1 =>
          rw [hstep] at h
          exact Relation.ReflTransGen.head ⟨w, hstep⟩ (ih s1 s' h)

theorem holdsLock_elim {pc : PC} {w i : Nat} (h : holdsLock pc w i) :
    (pc = PC.aCrit ∧ i = w) ∨ ∃ c j, pc = PC.bCrit c j ∧ i = j := by
  cases pc <;> simp [holdsLock] at h ⊢ <;> tauto

theorem inv_init (N T : Nat) (g : Nat → WorkQueue) : DInv N T (initState N T g) := by
  have hq : ∀ i, i < num_thread N T →
      (initState N T g).workqueues i = initQueue N T i := by
    intro i hi
    show (if i < num_thread N T then initQueue N T i else g i) = initQueue N T i
    rw [if_pos hi]
  refine ⟨?_, ?_, ?_, ?_, ?_, ?_, ?_, ?_, ?_, ?_, ?_, ?_, ?_, ?_⟩
  · show ((([] : List Int) : Multiset Int) + _) + _ = _
    have hinf : inflightItems (num_thread N T) (initState N T g) = 0 := by
      unfold inflightItems initState
      simp [inflight]
    have hcong : Finset.sum (Finset.range (num_thread N T))
        (fun i => qItems ((initState N T g).workqueues i))
        = Finset.sum (Finset.range (num_thread N T))
          (fun i => qItems (initQueue N T i)) :=
      Finset.sum_congr rfl (fun i hi => by rw [hq i (Finset.mem_range.mp hi)])
    have hqq : queuedItems (num_thread N T) (initState N T g)
        = (Finset.Ico (0 : Int) (N : Int)).val := by
      unfold queuedItems
      rw [hcong]
      exact init_qItems_partition N T
    rw [hinf, hqq]
    simp
  · have hinf : inflightItems (num_thread N T) (initState N T g) = 0 := by
      unfold inflightItems initState
      simp [inflight]
    show ((List.map Prod.snd ([] : List (Nat × Int))) : Multiset Int)
        = (([] : List Int) : Multiset Int)
          + inflightItems (num_thread N T) (initState N T g)
    rw [hinf]
    simp
  · intro p hp
    simp [initState] at hp
  · intro i hi
    rw [hq i hi]
    exact le_refl _
  · intro i hi
    rw [hq i hi]
    exact le_refl _
  · intro u hu _
    rw [hq u hu]
    exact init_next_le_init_last N T u hu
  · intro u hu hB
    simp [initState, inPhaseB] at hB
  · intro u hu c j hor
    rcases hor with h1 | h1 <;> simp [initState] at h1
  · intro u hu j hor
    rcases hor with h1 | h1 | h1 <;> simp [initState] at h1
  · intro u hu h1
    simp [initState] at h1
  · intro u hu h1
    simp [initState] at h1
  · intro i hi
    constructor
    · intro hlock
      rw [hq i hi] at hlock
      simp [initQueue] at hlock
    · rintro ⟨u, hu, hold⟩
      simp [initState, holdsLock] at hold
  · intro i u u' hu hu' h1 h2
    simp [initState, holdsLock] at h1
  · unfold totalCompleted initState
    simp

theorem sum_update_add_id {n j : Nat} (hj : j < n) (f : Nat → Nat) (a : Nat) :
    Finset.sum (Finset.range n) (fun i => Function.update f j a i) + f j
      = Finset.sum (Finset.range n) (fun i => f i) + a :=
  sum_update_add hj f a (fun x => x)

theorem inv_step_aWork (N T w : Nat) (item : Int) (s : DispatchState) (h : DInv N T s)
    (hw : w < num_thread N T) (hpc : s.pcs w = PC.aWork item) :
    DInv N T { s with
      pcs := Function.update s.pcs w PC.aLock
      completed := Function.update s.completed w (s.completed w + 1)
      execd := s.execd ++ [item] } := by
  have hIadd := sum_update_add hw s.pcs PC.aLock inflight
  rw [hpc] at hIadd
  have hI : Finset.sum (Finset.range (num_thread N T))
        (fun u => inflight (Function.update s.pcs w PC.aLock u)) + {item}
      = Finset.sum (Finset.range (num_thread N T)) (fun u => inflight (s.pcs u)) := by
    simpa [inflight] using hIadd
  refine ⟨?_, ?_, ?_, ?_, ?_, ?_, ?_, ?_, ?_, ?_, ?_, ?_, ?_, ?_⟩
  · have hpart := h.partEq
    unfold inflightItems queuedItems at hpart ⊢
    dsimp only
    rw [← Multiset.coe_add, Multiset.coe_singleton]
    calc ((s.execd : Multiset Int) + {item})
          + Finset.sum (Finset.range (num_thread N T))
              (fun u => inflight (Function.update s.pcs w PC.aLock u))
          + Finset.sum (Finset.range (num_thread N T)) (fun i => qItems (s.workqueues i))
        = (s.execd : Multiset Int)
          + (Finset.sum (Finset.range (num_thread N T))
              (fun u => inflight (Function.update s.pcs w PC.aLock u)) + {item})
          + Finset.sum (Finset.range (num_thread N T))
              (fun i => qItems (s.workqueues i)) := by abel
    _ = (s.execd : Multiset Int)
          + Finset.sum (Finset.range (num_thread N T)) (fun u => inflight (s.pcs u))
          + Finset.sum (Finset.range (num_thread N T))
              (fun i => qItems (s.workqueues i)) := by rw [hI]
    _ = (Finset.Ico (0 : Int) (N : Int)).val := hpart
  · have hclaims := h.claimsEq
    unfold inflightItems at hclaims ⊢
    dsimp only
    rw [← Multiset.coe_add, Multiset.coe_singleton, hclaims, ← hI]
    abel
  · intro p hp
    exact h.claimsSrc p hp
  · exact h.qmonoLo
  · exact h.qmonoHi
  · intro u hu hB
    dsimp only at hB ⊢
    by_cases huw : u = w
    · subst huw
      exact h.phaseA u hu (by rw [hpc]; rfl)
    · rw [Function.update_noteq huw] at hB
      exact h.phaseA u hu hB
  · intro u hu hB
    dsimp only at hB ⊢
    by_cases huw : u = w
    · subst huw
      rw [Function.update_same] at hB
      cases hB
    · rw [Function.update_noteq huw] at hB
      exact h.phaseB u hu hB
  · intro u hu c j hor
    dsimp only at hor
    by_cases huw : u = w
    · subst huw
      rw [Function.update_same] at hor
      rcases hor with h1 | h1 <;> cases h1
    · rw [Function.update_noteq huw] at hor
      exact h.acqBound u hu c j hor
  · intro u hu j hor j' hj' hj'w
    dsimp only at hor ⊢
    by_cases huw : u = w
    · subst huw
      rw [Function.update_same] at hor
      rcases hor with h1 | h1 | h1 <;> cases h1
    · rw [Function.update_noteq huw] at hor
      exact h.scanEmpty u hu j hor j' hj' hj'w
  · intro u hu hb j' hj' hj'w
    dsimp only at hb ⊢
    by_cases huw : u = w
    · subst huw
      rw [Function.update_same] at hb
      cases hb
    · rw [Function.update_noteq huw] at hb
      exact h.loopEmpty u hu hb j' hj' hj'w
  · intro u hu hb i hi
    dsimp only at hb ⊢
    by_cases huw : u = w
    · subst huw
      rw [Function.update_same] at hb
      cases hb
    · rw [Function.update_noteq huw] at hb
      exact h.doneAll u hu hb i hi
  · intro i hi
    dsimp only
    rw [h.lockIff i hi]
    constructor
    · rintro ⟨u, hu, hold⟩
      refine ⟨u, hu, ?_⟩
      by_cases huw : u = w
      · subst huw
        rw [hpc] at hold
        cases hold
      · rwa [Function.update_noteq huw]
    · rintro ⟨u, hu, hold⟩
      refine ⟨u, hu, ?_⟩
      by_cases huw : u = w
      · subst huw
        rw [Function.update_same] at hold
        cases hold
      · rwa [Function.update_noteq huw] at hold
  · intro i u u' hu hu' h1 h2
    dsimp only at h1 h2
    by_cases huw : u = w
    · subst huw
      rw [Function.update_same] at h1
      cases h1
    · by_cases huw' : u' = w
      · subst huw'
        rw [Function.update_same] at h2
        cases h2
      · rw [Function.update_noteq huw] at h1
        rw [Function.update_noteq huw'] at h2
        exact h.lockUniq i u u' hu hu' h1 h2
  · have hcomp := sum_update_add_id hw s.completed (s.completed w + 1)
    have hold := h.compSum
    unfold totalCompleted at hold ⊢
    dsimp only
    rw [List.length_append]
    simp only [List.length_singleton]
    omega

theorem inv_step_purepc (N T w : Nat) (s : DispatchState) (h : DInv N T s)
    (hw : w < num_thread N T) (pc' : PC)
    (hinf : inflight pc' = inflight (s.pcs w))
    (hBeq : inPhaseB pc' = inPhaseB (s.pcs w))
    (hacq : ∀ c j, (pc' = PC.bAcq c j ∨ pc' = PC.bCrit c j) →
        j < num_thread N T ∧ j ≠ w)
    (hscan : ∀ j, (pc' = PC.bFor false j ∨ pc' = PC.bAcq false j ∨
        pc' = PC.bCrit false j) →
        ∀ j', j' < j → j' ≠ w → emptyQ (s.workqueues j'))
    (hloop : pc' = PC.bLoop false →
        ∀ j', j' < num_thread N T → j' ≠ w → emptyQ (s.workqueues j'))
    (hdone : pc' = PC.wDone → ∀ i, i < num_thread N T → emptyQ (s.workqueues i))
    (hhold : ∀ i, ¬ holdsLock pc' w i)
    (hholdold : ∀ i, ¬ holdsLock (s.pcs w) w i) :
    DInv N T { s with pcs := Function.update s.pcs w pc' } := by
  have hIeq : Finset.sum (Finset.range (num_thread N T))
        (fun u => inflight (Function.update s.pcs w pc' u))
      = Finset.sum (Finset.range (num_thread N T)) (fun u => inflight (s.pcs u)) :=
    sum_update_eq hw s.pcs pc' inflight hinf
  refine ⟨?_, ?_, ?_, ?_, ?_, ?_, ?_, ?_, ?_, ?_, ?_, ?_, ?_, ?_⟩
  · have hpart := h.partEq
    unfold inflightItems queuedItems at hpart ⊢
    dsimp only
    rw [hIeq]
    exact hpart
  · have hclaims := h.claimsEq
    unfold inflightItems at hclaims ⊢
    dsimp only
    rw [hIeq]
    exact hclaims
  · exact h.claimsSrc
  · exact h.qmonoLo
  · exact h.qmonoHi
  · intro u hu hB
    dsimp only at hB ⊢
    by_cases huw : u = w
    · subst huw
      rw [Function.update_same] at hB
      rw [hBeq] at hB
      exact h.phaseA u hu hB
    · rw [Function.update_noteq huw] at hB
      exact h.phaseA u hu hB
  · intro u hu hB
    dsimp only at hB ⊢
    by_cases huw : u = w
    · subst huw
      rw [Function.update_same] at hB
      rw [hBeq] at hB
      exact h.phaseB u hu hB
    · rw [Function.update_noteq huw] at hB
      exact h.phaseB u hu hB
  · intro u hu c j hor
    dsimp only at hor
    by_cases huw : u = w
    · subst huw
      rw [Function.update_same] at hor
      exact hacq c j hor
    · rw [Function.update_noteq huw] at hor
      exact h.acqBound u hu c j hor
  · intro u hu j hor j' hj' hj'w
    dsimp only at hor ⊢
    by_cases huw : u = w
    · subst huw
      rw [Function.update_same] at hor
      exact hscan j hor j' hj' hj'w
    · rw [Function.update_noteq huw] at hor
      exact h.scanEmpty u hu j hor j' hj' hj'w
  · intro u hu hb j' hj' hj'w
    dsimp only at hb ⊢
    by_cases huw : u = w
    · subst huw
      rw [Function.update_same] at hb
      exact hloop hb j' hj' hj'w
    · rw [Function.update_noteq huw] at hb
      exact h.loopEmpty u hu hb j' hj' hj'w
  · intro u hu hb i hi
    dsimp only at hb ⊢
    by_cases huw : u = w
    · subst huw
      rw [Function.update_same] at hb
      exact hdone hb i hi
    · rw [Function.update_noteq huw] at hb
      exact h.doneAll u hu hb i hi
  · intro i hi
    dsimp only
    rw [h.lockIff i hi]
    constructor
    · rintro ⟨u, hu, hold⟩
      by_cases huw : u = w
      · subst huw
        exact absurd hold (hholdold i)
      · exact ⟨u, hu, by rwa [Function.update_noteq huw]⟩
    · rintro ⟨u, hu, hold⟩
      by_cases huw : u = w
      · subst huw
        rw [Function.update_same] at hold
        exact absurd hold (hhold i)
      · rw [Function.update_noteq huw] at hold
        exact ⟨u, hu, hold⟩
  · intro i u u' hu hu' h1 h2
    dsimp only at h1 h2
    by_cases huw : u = w
    · subst huw
      rw [Function.update_same] at h1
      exact absurd h1 (hhold i)
    · by_cases huw' : u' = w
      · subst huw'
        rw [Function.update_same] at h2
        exact absurd h2 (hhold i)
      · rw [Function.update_noteq huw] at h1
        rw [Function.update_noteq huw'] at h2
        exact h.lockUniq i u u' hu hu' h1 h2
  · exact h.compSum

theorem inv_step_bWork (N T w j : Nat) (item : Int) (s : DispatchState)
    (h : DInv N T s) (hw : w < num_thread N T) (hpc : s.pcs w = PC.bWork j item) :
    DInv N T { s with
      pcs := Function.update s.pcs w (PC.bFor true (j + 1))
      completed := Function.update s.completed w (s.completed w + 1)
      execd := s.execd ++ [item] } := by
  have hIadd := sum_update_add hw s.pcs (PC.bFor true (j + 1)) inflight
  rw [hpc] at hIadd
  have hI : Finset.sum (Finset.range (num_thread N T))
        (fun u => inflight (Function.update s.pcs w (PC.bFor true (j + 1)) u)) + {item}
      = Finset.sum (Finset.range (num_thread N T)) (fun u => inflight (s.pcs u)) := by
    simpa [inflight] using hIadd
  refine ⟨?_, ?_, ?_, ?_, ?_, ?_, ?_, ?_, ?_, ?_, ?_, ?_, ?_, ?_⟩
  · have hpart := h.partEq
    unfold inflightItems queuedItems at hpart ⊢
    dsimp only
    rw [← Multiset.coe_add, Multiset.coe_singleton]
    calc ((s.execd : Multiset Int) + {item})
          + Finset.sum (Finset.range (num_thread N T))
              (fun u => inflight (Function.update s.pcs w (PC.bFor true (j + 1)) u))
          + Finset.sum (Finset.range (num_thread N T)) (fun i => qItems (s.workqueues i))
        = (s.execd : Multiset Int)
          + (Finset.sum (Finset.range (num_thread N T))
              (fun u => inflight (Function.update s.pcs w (PC.bFor true (j + 1)) u))
              + {item})
          + Finset.sum (Finset.range (num_thread N T))
              (fun i => qItems (s.workqueues i)) := by abel
    _ = (s.execd : Multiset Int)
          + Finset.sum (Finset.range (num_thread N T)) (fun u => inflight (s.pcs u))
          + Finset.sum (Finset.range (num_thread N T))
              (fun i => qItems (s.workqueues i)) := by rw [hI]
    _ = (Finset.Ico (0 : Int) (N : Int)).val := hpart
  · have hclaims := h.claimsEq
    unfold inflightItems at hclaims ⊢
    dsimp only
    rw [← Multiset.coe_add, Multiset.coe_singleton, hclaims, ← hI]
    abel
  · exact h.claimsSrc
  · exact h.qmonoLo
  · exact h.qmonoHi
  · intro u hu hB
    dsimp only at hB ⊢
    by_cases huw : u = w
    · subst huw
      rw [Function.update_same] at hB
      simp [inPhaseB] at hB
    · rw [Function.update_noteq huw] at hB
      exact h.phaseA u hu hB
  · intro u hu hB
    dsimp only at hB ⊢
    by_cases huw : u = w
    · subst huw
      exact h.phaseB u hu (by rw [hpc]; rfl)
    · rw [Function.update_noteq huw] at hB
      exact h.phaseB u hu hB
  · intro u hu c j0 hor
    dsimp only at hor
    by_cases huw : u = w
    · subst huw
      rw [Function.update_same] at hor
      rcases hor with h1 | h1 <;> cases h1
    · rw [Function.update_noteq huw] at hor
      exact h.acqBound u hu c j0 hor
  · intro u hu j0 hor j' hj' hj'w
    dsimp only at hor ⊢
    by_cases huw : u = w
    · subst huw
      rw [Function.update_same] at hor
      rcases hor with h1 | h1 | h1 <;> simp at h1
    · rw [Function.update_noteq huw] at hor
      exact h.scanEmpty u hu j0 hor j' hj' hj'w
  · intro u hu hb j' hj' hj'w
    dsimp only at hb ⊢
    by_cases huw : u = w
    · subst huw
      rw [Function.update_same] at hb
      cases hb
    · rw [Function.update_noteq huw] at hb
      exact h.loopEmpty u hu hb j' hj' hj'w
  · intro u hu hb i hi
    dsimp only at hb ⊢
    by_cases huw : u = w
    · subst huw
      rw [Function.update_same] at hb
      cases hb
    · rw [Function.update_noteq huw] at hb
      exact h.doneAll u hu hb i hi
  · intro i hi
    dsimp only
    rw [h.lockIff i hi]
    constructor
    · rintro ⟨u, hu, hold⟩
      refine ⟨u, hu, ?_⟩
      by_cases huw : u = w
      · subst huw
        rw [hpc] at hold
        cases hold
      · rwa [Function.update_noteq huw]
    · rintro ⟨u, hu, hold⟩
      refine ⟨u, hu, ?_⟩
      by_cases huw : u = w
      · subst huw
        rw [Function.update_same] at hold
        cases hold
      · rwa [Function.update_noteq huw] at hold
  · intro i u u' hu hu' h1 h2
    dsimp only at h1 h2
    by_cases huw : u = w
    · subst huw
      rw [Function.update_same] at h1
      cases h1
    · by_cases huw' : u' = w
      · subst huw'
        rw [Function.update_same] at h2
        cases h2
      · rw [Function.update_noteq huw] at h1
        rw [Function.update_noteq huw'] at h2
        exact h.lockUniq i u u' hu hu' h1 h2
  · have hcomp := sum_update_add_id hw s.completed (s.completed w + 1)
    have hold := h.compSum
    unfold totalCompleted at hold ⊢
    dsimp only
    rw [List.length_append]
    simp only [List.length_singleton]
    omega

theorem emptyQ_update_of_eq {wq : Nat → WorkQueue} {w : Nat} {q' : WorkQueue}
    (hn : q'.next = (wq w).next) (hl : q'.last = (wq w).last) (i : Nat) :
    emptyQ (Function.update wq w q' i) ↔ emptyQ (wq i) := by
  by_cases hiw : i = w
  · subst hiw
    rw [Function.update_same]
    unfold emptyQ
    rw [hn, hl]
  · rw [Function.update_noteq hiw]

theorem emptyQ_update_mono {wq : Nat → WorkQueue} {w : Nat} {q' : WorkQueue}
    (hn : (wq w).next ≤ q'.next) (hl : q'.last ≤ (wq w).last) (i : Nat) :
    emptyQ (wq i) → emptyQ (Function.update wq w q' i) := by
  by_cases hiw : i = w
  · subst hiw
    rw [Function.update_same]
    unfold emptyQ
    intro hlt
    omega
  · rw [Function.update_noteq hiw]
    exact fun hx => hx

theorem inv_step_aLock (N T w : Nat) (s : DispatchState) (h : DInv N T s)
    (hw : w < num_thread N T) (hpc : s.pcs w = PC.aLock)
    (hlock : (s.workqueues w).lock = false) :
    DInv N T { s with
      workqueues := Function.update s.workqueues w
        ⟨(s.workqueues w).next, (s.workqueues w).last, true⟩
      pcs := Function.update s.pcs w PC.aCrit } := by
  have hQeq : Finset.sum (Finset.range (num_thread N T))
        (fun i => qItems (Function.update s.workqueues w
          ⟨(s.workqueues w).next, (s.workqueues w).last, true⟩ i))
      = Finset.sum (Finset.range (num_thread N T)) (fun i => qItems (s.workqueues i)) :=
    sum_update_eq hw s.workqueues _ qItems rfl
  have hIeq : Finset.sum (Finset.range (num_thread N T))
        (fun u => inflight (Function.update s.pcs w PC.aCrit u))
      = Finset.sum (Finset.range (num_thread N T)) (fun u => inflight (s.pcs u)) :=
    sum_update_eq hw s.pcs PC.aCrit inflight (by rw [hpc]; rfl)
  have hEmp : ∀ i, emptyQ (Function.update s.workqueues w
        ⟨(s.workqueues w).next, (s.workqueues w).last, true⟩ i) ↔
      emptyQ (s.workqueues i) := emptyQ_update_of_eq rfl rfl
  refine ⟨?_, ?_, ?_, ?_, ?_, ?_, ?_, ?_, ?_, ?_, ?_, ?_, ?_, ?_⟩
  · have hpart := h.partEq
    unfold inflightItems queuedItems at hpart ⊢
    dsimp only
    rw [hQeq, hIeq]
    exact hpart
  · have hclaims := h.claimsEq
    unfold inflightItems at hclaims ⊢
    dsimp only
    rw [hIeq]
    exact hclaims
  · exact h.claimsSrc
  · intro i hi
    dsimp only
    by_cases hiw : i = w
    · subst hiw
      rw [Function.update_same]
      exact h.qmonoLo i hi
    · rw [Function.update_noteq hiw]
      exact h.qmonoLo i hi
  · intro i hi
    dsimp only
    by_cases hiw : i = w
    · subst hiw
      rw [Function.update_same]
      exact h.qmonoHi i hi
    · rw [Function.update_noteq hiw]
      exact h.qmonoHi i hi
  · intro u hu hB
    dsimp only at hB ⊢
    by_cases huw : u = w
    · subst huw
      rw [Function.update_same]
      exact h.phaseA u hu (by rw [hpc]; rfl)
    · rw [Function.update_noteq huw] at hB ⊢
      exact h.phaseA u hu hB
  · intro u hu hB
    dsimp only at hB ⊢
    by_cases huw : u = w
    · subst huw
      rw [Function.update_same] at hB
      simp [inPhaseB] at hB
    · rw [Function.update_noteq huw] at hB ⊢
      exact h.phaseB u hu hB
  · intro u hu c j hor
    dsimp only at hor
    by_cases huw : u = w
    · subst huw
      rw [Function.update_same] at hor
      rcases hor with h1 | h1 <;> cases h1
    · rw [Function.update_noteq huw] at hor
      exact h.acqBound u hu c j hor
  · intro u hu j hor j' hj' hj'w
    dsimp only at hor ⊢
    rw [hEmp j']
    by_cases huw : u = w
    · subst huw
      rw [Function.update_same] at hor
      rcases hor with h1 | h1 | h1 <;> cases h1
    · rw [Function.update_noteq huw] at hor
      exact h.scanEmpty u hu j hor j' hj' hj'w
  · intro u hu hb j' hj' hj'w
    dsimp only at hb ⊢
    rw [hEmp j']
    by_cases huw : u = w
    · subst huw
      rw [Function.update_same] at hb
      cases hb
    · rw [Function.update_noteq huw] at hb
      exact h.loopEmpty u hu hb j' hj' hj'w
  · intro u hu hb i hi
    dsimp only at hb ⊢
    rw [hEmp i]
    by_cases huw : u = w
    · subst huw
      rw [Function.update_same] at hb
      cases hb
    · rw [Function.update_noteq huw] at hb
      exact h.doneAll u hu hb i hi
  · intro i hi
    dsimp only
    by_cases hiw : i = w
    · subst hiw
      rw [Function.update_same]
      constructor
      · intro _
        exact ⟨i, hw, by rw [Function.update_same]; exact rfl⟩
      · intro _
        rfl
    · rw [Function.update_noteq hiw]
      rw [h.lockIff i hi]
      constructor
      · rintro ⟨u, hu, hold⟩
        refine ⟨u, hu, ?_⟩
        by_cases huw : u = w
        · subst huw
          rw [hpc] at hold
          cases hold
        · rwa [Function.update_noteq huw]
      · rintro ⟨u, hu, hold⟩
        refine ⟨u, hu, ?_⟩
        by_cases huw : u = w
        · subst huw
          rw [Function.update_same] at hold
          exact absurd hold hiw
        · rwa [Function.update_noteq huw] at hold
  · intro i u u' hu hu' h1 h2
    dsimp only at h1 h2
    by_cases huw : u = w
    · by_cases huw' : u' = w
      · rw [huw, huw']
      · exfalso
        rw [huw, Function.update_same] at h1
        have hiw : i = w := h1
        rw [Function.update_noteq huw'] at h2
        rw [hiw] at h2
        have : (s.workqueues w).lock = true := (h.lockIff w hw).mpr ⟨u', hu', h2⟩
        rw [hlock] at this
        cases this
    · by_cases huw' : u' = w
      · exfalso
        rw [huw', Function.update_same] at h2
        have hiw : i = w := h2
        rw [Function.update_noteq huw] at h1
        rw [hiw] at h1
        have : (s.workqueues w).lock = true := (h.lockIff w hw).mpr ⟨u, hu, h1⟩
        rw [hlock] at this
        cases this
      · rw [Function.update_noteq huw] at h1
        rw [Function.update_noteq huw'] at h2
        exact h.lockUniq i u u' hu hu' h1 h2
  · exact h.compSum

theorem update_next_eq {wq : Nat → WorkQueue} {j : Nat} {q' : WorkQueue}
    (hn : q'.next = (wq j).next) (u : Nat) :
    (Function.update wq j q' u).next = (wq u).next := by
  by_cases huj : u = j
  · subst huj
    rw [Function.update_same, hn]
  · rw [Function.update_noteq huj]

theorem update_last_eq {wq : Nat → WorkQueue} {j : Nat} {q' : WorkQueue}
    (hl : q'.last = (wq j).last) (u : Nat) :
    (Function.update wq j q' u).last = (wq u).last := by
  by_cases huj : u = j
  · subst huj
    rw [Function.update_same, hl]
  · rw [Function.update_noteq huj]

theorem inv_step_bAcq (N T w : Nat) (c : Bool) (j : Nat) (s : DispatchState)
    (h : DInv N T s) (hw : w < num_thread N T) (hpc : s.pcs w = PC.bAcq c j)
    (hlock : (s.workqueues j).lock = false) :
    DInv N T { s with
      workqueues := Function.update s.workqueues j
        ⟨(s.workqueues j).next, (s.workqueues j).last, true⟩
      pcs := Function.update s.pcs w (PC.bCrit c j) } := by
  obtain ⟨hjn, hjw⟩ := h.acqBound w hw c j (Or.inl hpc)
  have hQeq : Finset.sum (Finset.range (num_thread N T))
        (fun i => qItems (Function.update s.workqueues j
          ⟨(s.workqueues j).next, (s.workqueues j).last, true⟩ i))
      = Finset.sum (Finset.range (num_thread N T)) (fun i => qItems (s.workqueues i)) :=
    sum_update_eq hjn s.workqueues _ qItems rfl
  have hIeq : Finset.sum (Finset.range (num_thread N T))
        (fun u => inflight (Function.update s.pcs w (PC.bCrit c j) u))
      = Finset.sum (Finset.range (num_thread N T)) (fun u => inflight (s.pcs u)) :=
    sum_update_eq hw s.pcs (PC.bCrit c j) inflight (by rw [hpc]; rfl)
  have hEmp : ∀ i, emptyQ (Function.update s.workqueues j
        ⟨(s.workqueues j).next, (s.workqueues j).last, true⟩ i) ↔
      emptyQ (s.workqueues i) := emptyQ_update_of_eq rfl rfl
  have hnext : ∀ u, (Function.update s.workqueues j
      ⟨(s.workqueues j).next, (s.workqueues j).last, true⟩ u).next
      = (s.workqueues u).next := update_next_eq rfl
  have hlast : ∀ u, (Function.update s.workqueues j
      ⟨(s.workqueues j).next, (s.workqueues j).last, true⟩ u).last
      = (s.workqueues u).last := update_last_eq rfl
  refine ⟨?_, ?_, ?_, ?_, ?_, ?_, ?_, ?_, ?_, ?_, ?_, ?_, ?_, ?_⟩
  · have hpart := h.partEq
    unfold inflightItems queuedItems at hpart ⊢
    dsimp only
    rw [hQeq, hIeq]
    exact hpart
  · have hclaims := h.claimsEq
    unfold inflightItems at hclaims ⊢
    dsimp only
    rw [hIeq]
    exact hclaims
  · exact h.claimsSrc
  · intro i hi
    dsimp only
    rw [hnext i]
    exact h.qmonoLo i hi
  · intro i hi
    dsimp only
    rw [hlast i]
    exact h.qmonoHi i hi
  · intro u hu hB
    dsimp only at hB ⊢
    rw [hnext u, hlast u]
    by_cases huw : u = w
    · rw [huw, Function.update_same] at hB
      simp [inPhaseB] at hB
    · rw [Function.update_noteq huw] at hB
      exact h.phaseA u hu hB
  · intro u hu hB
    dsimp only at hB ⊢
    rw [hnext u, hlast u]
    by_cases huw : u = w
    · rw [huw]
      exact h.phaseB w hw (by rw [hpc]; rfl)
    · rw [Function.update_noteq huw] at hB
      exact h.phaseB u hu hB
  · intro u hu c0 j0 hor
    dsimp only at hor
    by_cases huw : u = w
    · subst huw
      rw [Function.update_same] at hor
      rcases hor with h1 | h1
      · cases h1
      · cases h1
        exact ⟨hjn, hjw⟩
    · rw [Function.update_noteq huw] at hor
      exact h.acqBound u hu c0 j0 hor
  · intro u hu j0 hor j' hj' hj'w
    dsimp only at hor ⊢
    rw [hEmp j']
    by_cases huw : u = w
    · subst huw
      rw [Function.update_same] at hor
      rcases hor with h1 | h1 | h1
      · cases h1
      · cases h1
      · cases h1
        exact h.scanEmpty u hu j (Or.inr (Or.inl hpc)) j' hj' hj'w
    · rw [Function.update_noteq huw] at hor
      exact h.scanEmpty u hu j0 hor j' hj' hj'w
  · intro u hu hb j' hj' hj'w
    dsimp only at hb ⊢
    rw [hEmp j']
    by_cases huw : u = w
    · rw [huw, Function.update_same] at hb
      cases hb
    · rw [Function.update_noteq huw] at hb
      exact h.loopEmpty u hu hb j' hj' hj'w
  · intro u hu hb i hi
    dsimp only at hb ⊢
    rw [hEmp i]
    by_cases huw : u = w
    · rw [huw, Function.update_same] at hb
      cases hb
    · rw [Function.update_noteq huw] at hb
      exact h.doneAll u hu hb i hi
  · intro i hi
    dsimp only
    by_cases hij : i = j
    · rw [hij, Function.update_same]
      constructor
      · intro _
        exact ⟨w, hw, by rw [Function.update_same]; exact rfl⟩
      · intro _
        rfl
    · rw [Function.update_noteq hij, h.lockIff i hi]
      constructor
      · rintro ⟨u, hu, hold⟩
        refine ⟨u, hu, ?_⟩
        by_cases huw : u = w
        · rw [huw, hpc] at hold
          cases hold
        · rwa [Function.update_noteq huw]
      · rintro ⟨u, hu, hold⟩
        refine ⟨u, hu, ?_⟩
        by_cases huw : u = w
        · rw [huw, Function.update_same] at hold
          have : i = j := hold
          exact absurd this hij
        · rwa [Function.update_noteq huw] at hold
  · intro i u u' hu hu' h1 h2
    dsimp only at h1 h2
    by_cases huw : u = w
    · by_cases huw' : u' = w
      · rw [huw, huw']
      · exfalso
        rw [huw, Function.update_same] at h1
        have hij : i = j := h1
        rw [Function.update_noteq huw'] at h2
        rw [hij] at h2
        have : (s.workqueues j).lock = true := (h.lockIff j hjn).mpr ⟨u', hu', h2⟩
        rw [hlock] at this
        cases this
    · by_cases huw' : u' = w
      · exfalso
        rw [huw', Function.update_same] at h2
        have hij : i = j := h2
        rw [Function.update_noteq huw] at h1
        rw [hij] at h1
        have : (s.workqueues j).lock = true := (h.lockIff j hjn).mpr ⟨u, hu, h1⟩
        rw [hlock] at this
        cases this
      · rw [Function.update_noteq huw] at h1
        rw [Function.update_noteq huw'] at h2
        exact h.lockUniq i u u' hu hu' h1 h2
  · exact h.compSum

theorem inv_step_aCrit_term (N T w : Nat) (s : DispatchState) (h : DInv N T s)
    (hw : w < num_thread N T) (hpc : s.pcs w = PC.aCrit)
    (hguard : (s.workqueues w).last ≤ (s.workqueues w).next) :
    DInv N T { s with
      workqueues := Function.update s.workqueues w
        ⟨(s.workqueues w).next + 1, (s.workqueues w).last, false⟩
      pcs := Function.update s.pcs w (PC.bLoop true) } := by
  have hA : (s.workqueues w).next ≤ (s.workqueues w).last :=
    h.phaseA w hw (by rw [hpc]; rfl)
  have heqnl : (s.workqueues w).next = (s.workqueues w).last := by omega
  have hQeq : Finset.sum (Finset.range (num_thread N T))
        (fun i => qItems (Function.update s.workqueues w
          ⟨(s.workqueues w).next + 1, (s.workqueues w).last, false⟩ i))
      = Finset.sum (Finset.range (num_thread N T)) (fun i => qItems (s.workqueues i)) := by
    have hq1 : qItems (s.workqueues w) = 0 := qItems_eq_zero_of_empty hguard
    have hq2 : qItems (⟨(s.workqueues w).next + 1, (s.workqueues w).last, false⟩
        : WorkQueue) = 0 := by
      apply qItems_eq_zero_of_empty
      show (s.workqueues w).last ≤ (s.workqueues w).next + 1
      omega
    refine sum_update_eq hw s.workqueues _ qItems ?_
    rw [hq1, hq2]
  have hIeq : Finset.sum (Finset.range (num_thread N T))
        (fun u => inflight (Function.update s.pcs w (PC.bLoop true) u))
      = Finset.sum (Finset.range (num_thread N T)) (fun u => inflight (s.pcs u)) :=
    sum_update_eq hw s.pcs (PC.bLoop true) inflight (by rw [hpc]; rfl)
  have hmono : ∀ i, emptyQ (s.workqueues i) → emptyQ (Function.update s.workqueues w
      ⟨(s.workqueues w).next + 1, (s.workqueues w).last, false⟩ i) :=
    emptyQ_update_mono (le_of_lt (lt_add_one _)) (le_refl _)
  refine ⟨?_, ?_, ?_, ?_, ?_, ?_, ?_, ?_, ?_, ?_, ?_, ?_, ?_, ?_⟩
  · have hpart := h.partEq
    unfold inflightItems queuedItems at hpart ⊢
    dsimp only
    rw [hQeq, hIeq]
    exact hpart
  · have hclaims := h.claimsEq
    unfold inflightItems at hclaims ⊢
    dsimp only
    rw [hIeq]
    exact hclaims
  · exact h.claimsSrc
  · intro i hi
    dsimp only
    by_cases hiw : i = w
    · subst hiw
      rw [Function.update_same]
      have := h.qmonoLo i hi
      show init_next N T i ≤ (s.workqueues i).next + 1
      omega
    · rw [Function.update_noteq hiw]
      exact h.qmonoLo i hi
  · intro i hi
    dsimp only
    by_cases hiw : i = w
    · subst hiw
      rw [Function.update_same]
      exact h.qmonoHi i hi
    · rw [Function.update_noteq hiw]
      exact h.qmonoHi i hi
  · intro u hu hB
    dsimp only at hB ⊢
    by_cases huw : u = w
    · subst huw
      rw [Function.update_same] at hB
      simp [inPhaseB] at hB
    · rw [Function.update_noteq huw] at hB ⊢
      exact h.phaseA u hu hB
  · intro u hu hB
    dsimp only at hB ⊢
    by_cases huw : u = w
    · subst huw
      rw [Function.update_same]
      show (s.workqueues u).next + 1 = (s.workqueues u).last + 1
      omega
    · rw [Function.update_noteq huw] at hB ⊢
      exact h.phaseB u hu hB
  · intro u hu c j hor
    dsimp only at hor
    by_cases huw : u = w
    · subst huw
      rw [Function.update_same] at hor
      rcases hor with h1 | h1 <;> cases h1
    · rw [Function.update_noteq huw] at hor
      exact h.acqBound u hu c j hor
  · intro u hu j hor j' hj' hj'w
    dsimp only at hor ⊢
    by_cases huw : u = w
    · subst huw
      rw [Function.update_same] at hor
      rcases hor with h1 | h1 | h1 <;> simp at h1
    · rw [Function.update_noteq huw] at hor
      exact hmono j' (h.scanEmpty u hu j hor j' hj' hj'w)
  · intro u hu hb j' hj' hj'w
    dsimp only at hb ⊢
    by_cases huw : u = w
    · subst huw
      rw [Function.update_same] at hb
      simp at hb
    · rw [Function.update_noteq huw] at hb
      exact hmono j' (h.loopEmpty u hu hb j' hj' hj'w)
  · intro u hu hb i hi
    dsimp only at hb ⊢
    by_cases huw : u = w
    · subst huw
      rw [Function.update_same] at hb
      cases hb
    · rw [Function.update_noteq huw] at hb
      exact hmono i (h.doneAll u hu hb i hi)
  · intro i hi
    dsimp only
    by_cases hiw : i = w
    · subst hiw
      rw [Function.update_same]
      constructor
      · intro hx
        cases hx
      · rintro ⟨u, hu, hold⟩
        exfalso
        by_cases huw : u = i
        · subst huw
          rw [Function.update_same] at hold
          cases hold
        · rw [Function.update_noteq huw] at hold
          have hWhold : holdsLock (s.pcs i) i i := by
            rw [hpc]
            exact rfl
          exact huw (h.lockUniq i u i hu hw hold hWhold)
    · rw [Function.update_noteq hiw, h.lockIff i hi]
      constructor
      · rintro ⟨u, hu, hold⟩
        refine ⟨u, hu, ?_⟩
        by_cases huw : u = w
        · subst huw
          rw [hpc] at hold
          have : i = u := hold
          exact absurd this hiw
        · rwa [Function.update_noteq huw]
      · rintro ⟨u, hu, hold⟩
        refine ⟨u, hu, ?_⟩
        by_cases huw : u = w
        · subst huw
          rw [Function.update_same] at hold
          cases hold
        · rwa [Function.update_noteq huw] at hold
  · intro i u u' hu hu' h1 h2
    dsimp only at h1 h2
    by_cases huw : u = w
    · subst huw
      rw [Function.update_same] at h1
      cases h1
    · by_cases huw' : u' = w
      · subst huw'
        rw [Function.update_same] at h2
        cases h2
      · rw [Function.update_noteq huw] at h1
        rw [Function.update_noteq huw'] at h2
        exact h.lockUniq i u u' hu hu' h1 h2
  · exact h.compSum

theorem inv_step_aCrit_pop (N T w : Nat) (s : DispatchState) (h : DInv N T s)
    (hw : w < num_thread N T) (hpc : s.pcs w = PC.aCrit)
    (hguard : (s.workqueues w).next < (s.workqueues w).last) :
    DInv N T { s with
      workqueues := Function.update s.workqueues w
        ⟨(s.workqueues w).next + 1, (s.workqueues w).last, false⟩
      pcs := Function.update s.pcs w (PC.aWork ((s.workqueues w).next))
      claims := s.claims ++ [(w, (s.workqueues w).next)] } := by
  have hQadd := sum_update_add hw s.workqueues
      (⟨(s.workqueues w).next + 1, (s.workqueues w).last, false⟩ : WorkQueue) qItems
  have hsplit : qItems (s.workqueues w)
      = (s.workqueues w).next ::ₘ
        qItems (⟨(s.workqueues w).next + 1, (s.workqueues w).last, false⟩ : WorkQueue) := by
    unfold qItems
    exact ico_val_cons_left _ _ hguard
  rw [hsplit, ← Multiset.singleton_add] at hQadd
  have hQ : Finset.sum (Finset.range (num_thread N T))
        (fun i => qItems (Function.update s.workqueues w
          ⟨(s.workqueues w).next + 1, (s.workqueues w).last, false⟩ i))
        + {(s.workqueues w).next}
      = Finset.sum (Finset.range (num_thread N T))
          (fun i => qItems (s.workqueues i)) := by
    rw [← add_assoc] at hQadd
    exact add_right_cancel hQadd
  have hIadd := sum_update_add hw s.pcs (PC.aWork ((s.workqueues w).next)) inflight
  rw [hpc] at hIadd
  have hI : Finset.sum (Finset.range (num_thread N T))
        (fun u => inflight (Function.update s.pcs w
          (PC.aWork ((s.workqueues w).next)) u))
      = Finset.sum (Finset.range (num_thread N T)) (fun u => inflight (s.pcs u))
        + {(s.workqueues w).next} := by
    simpa [inflight] using hIadd
  have hmono : ∀ i, emptyQ (s.workqueues i) → emptyQ (Function.update s.workqueues w
      ⟨(s.workqueues w).next + 1, (s.workqueues w).last, false⟩ i) :=
    emptyQ_update_mono (le_of_lt (lt_add_one _)) (le_refl _)
  refine ⟨?_, ?_, ?_, ?_, ?_, ?_, ?_, ?_, ?_, ?_, ?_, ?_, ?_, ?_⟩
  · have hpart := h.partEq
    unfold inflightItems queuedItems at hpart ⊢
    dsimp only
    calc (s.execd : Multiset Int)
          + Finset.sum (Finset.range (num_thread N T))
              (fun u => inflight (Function.update s.pcs w
                (PC.aWork ((s.workqueues w).next)) u))
          + Finset.sum (Finset.range (num_thread N T))
              (fun i => qItems (Function.update s.workqueues w
                ⟨(s.workqueues w).next + 1, (s.workqueues w).last, false⟩ i))
        = (s.execd : Multiset Int)
          + Finset.sum (Finset.range (num_thread N T)) (fun u => inflight (s.pcs u))
          + (Finset.sum (Finset.range (num_thread N T))
              (fun i => qItems (Function.update s.workqueues w
                ⟨(s.workqueues w).next + 1, (s.workqueues w).last, false⟩ i))
             + {(s.workqueues w).next}) := by rw [hI]; abel
    _ = (s.execd : Multiset Int)
          + Finset.sum (Finset.range (num_thread N T)) (fun u => inflight (s.pcs u))
          + Finset.sum (Finset.range (num_thread N T))
              (fun i => qItems (s.workqueues i)) := by rw [hQ]
    _ = (Finset.Ico (0 : Int) (N : Int)).val := hpart
  · have hclaims := h.claimsEq
    unfold inflightItems at hclaims ⊢
    dsimp only
    rw [List.map_append, ← Multiset.coe_add]
    show ((s.claims.map Prod.snd : List Int) : Multiset Int)
        + (([(s.workqueues w).next] : List Int) : Multiset Int) = _
    rw [Multiset.coe_singleton, hclaims, hI]
    abel
  · intro p hp
    dsimp only at hp
    rw [List.mem_append] at hp
    rcases hp with hp | hp
    · exact h.claimsSrc p hp
    · rw [List.mem_singleton] at hp
      subst hp
      exact ⟨hw, h.qmonoLo w hw, lt_of_lt_of_le hguard (h.qmonoHi w hw)⟩
  · intro i hi
    dsimp only
    by_cases hiw : i = w
    · subst hiw
      rw [Function.update_same]
      have := h.qmonoLo i hi
      show init_next N T i ≤ (s.workqueues i).next + 1
      omega
    · rw [Function.update_noteq hiw]
      exact h.qmonoLo i hi
  · intro i hi
    dsimp only
    by_cases hiw : i = w
    · subst hiw
      rw [Function.update_same]
      exact h.qmonoHi i hi
    · rw [Function.update_noteq hiw]
      exact h.qmonoHi i hi
  · intro u hu hB
    dsimp only at hB ⊢
    by_cases huw : u = w
    · subst huw
      rw [Function.update_same]
      show (s.workqueues u).next + 1 ≤ (s.workqueues u).last
      omega
    · rw [Function.update_noteq huw] at hB ⊢
      exact h.phaseA u hu hB
  · intro u hu hB
    dsimp only at hB ⊢
    by_cases huw : u = w
    · subst huw
      rw [Function.update_same] at hB
      simp [inPhaseB] at hB
    · rw [Function.update_noteq huw] at hB ⊢
      exact h.phaseB u hu hB
  · intro u hu c j hor
    dsimp only at hor
    by_cases huw : u = w
    · subst huw
      rw [Function.update_same] at hor
      rcases hor with h1 | h1 <;> cases h1
    · rw [Function.update_noteq huw] at hor
      exact h.acqBound u hu c j hor
  · intro u hu j hor j' hj' hj'w
    dsimp only at hor ⊢
    by_cases huw : u = w
    · subst huw
      rw [Function.update_same] at hor
      rcases hor with h1 | h1 | h1 <;> cases h1
    · rw [Function.update_noteq huw] at hor
      exact hmono j' (h.scanEmpty u hu j hor j' hj' hj'w)
  · intro u hu hb j' hj' hj'w
    dsimp only at hb ⊢
    by_cases huw : u = w
    · subst huw
      rw [Function.update_same] at hb
      cases hb
    · rw [Function.update_noteq huw] at hb
      exact hmono j' (h.loopEmpty u hu hb j' hj' hj'w)
  · intro u hu hb i hi
    dsimp only at hb ⊢
    by_cases huw : u = w
    · subst huw
      rw [Function.update_same] at hb
      cases hb
    · rw [Function.update_noteq huw] at hb
      exact hmono i (h.doneAll u hu hb i hi)
  · intro i hi
    dsimp only
    by_cases hiw : i = w
    · subst hiw
      rw [Function.update_same]
      constructor
      · intro hx
        cases hx
      · rintro ⟨u, hu, hold⟩
        exfalso
        by_cases huw : u = i
        · subst huw
          rw [Function.update_same] at hold
          cases hold
        · rw [Function.update_noteq huw] at hold
          have hWhold : holdsLock (s.pcs i) i i := by
            rw [hpc]
            exact rfl
          exact huw (h.lockUniq i u i hu hw hold hWhold)
    · rw [Function.update_noteq hiw, h.lockIff i hi]
      constructor
      · rintro ⟨u, hu, hold⟩
        refine ⟨u, hu, ?_⟩
        by_cases huw : u = w
        · subst huw
          rw [hpc] at hold
          have : i = u := hold
          exact absurd this hiw
        · rwa [Function.update_noteq huw]
      · rintro ⟨u, hu, hold⟩
        refine ⟨u, hu, ?_⟩
        by_cases huw : u = w
        · subst huw
          rw [Function.update_same] at hold
          cases hold
        · rwa [Function.update_noteq huw] at hold
  · intro i u u' hu hu' h1 h2
    dsimp only at h1 h2
    by_cases huw : u = w
    · subst huw
      rw [Function.update_same] at h1
      cases h1
    · by_cases huw' : u' = w
      · subst huw'
        rw [Function.update_same] at h2
        cases h2
      · rw [Function.update_noteq huw] at h1
        rw [Function.update_noteq huw'] at h2
        exact h.lockUniq i u u' hu hu' h1 h2
  · have hold := h.compSum
    unfold totalCompleted at hold ⊢
    dsimp only
    exact hold

theorem inv_step_bCrit_steal (N T w : Nat) (c : Bool) (j : Nat) (s : DispatchState)
    (h : DInv N T s) (hw : w < num_thread N T) (hpc : s.pcs w = PC.bCrit c j)
    (hguard : (s.workqueues j).next < (s.workqueues j).last) :
    DInv N T { s with
      workqueues := Function.update s.workqueues j
        ⟨(s.workqueues j).next, (s.workqueues j).last - 1, false⟩
      pcs := Function.update s.pcs w (PC.bWork j ((s.workqueues j).last - 1))
      claims := s.claims ++ [(j, (s.workqueues j).last - 1)] } := by
  obtain ⟨hjn, hjw⟩ := h.acqBound w hw c j (Or.inr hpc)
  have hQadd := sum_update_add hjn s.workqueues
      (⟨(s.workqueues j).next, (s.workqueues j).last - 1, false⟩ : WorkQueue) qItems
  have hsplit : qItems (s.workqueues j)
      = ((s.workqueues j).last - 1) ::ₘ
        qItems (⟨(s.workqueues j).next, (s.workqueues j).last - 1, false⟩ : WorkQueue) := by
    unfold qItems
    exact ico_val_cons_right _ _ hguard
  rw [hsplit, ← Multiset.singleton_add] at hQadd
  have hQ : Finset.sum (Finset.range (num_thread N T))
        (fun i => qItems (Function.update s.workqueues j
          ⟨(s.workqueues j).next, (s.workqueues j).last - 1, false⟩ i))
        + {(s.workqueues j).last - 1}
      = Finset.sum (Finset.range (num_thread N T))
          (fun i => qItems (s.workqueues i)) := by
    rw [← add_assoc] at hQadd
    exact add_right_cancel hQadd
  have hIadd := sum_update_add hw s.pcs
      (PC.bWork j ((s.workqueues j).last - 1)) inflight
  rw [hpc] at hIadd
  have hI : Finset.sum (Finset.range (num_thread N T))
        (fun u => inflight (Function.update s.pcs w
          (PC.bWork j ((s.workqueues j).last - 1)) u))
      = Finset.sum (Finset.range (num_thread N T)) (fun u => inflight (s.pcs u))
        + {(s.workqueues j).last - 1} := by
    simpa [inflight] using hIadd
  have hmono : ∀ i, emptyQ (s.workqueues i) → emptyQ (Function.update s.workqueues j
      ⟨(s.workqueues j).next, (s.workqueues j).last - 1, false⟩ i) := by
    refine emptyQ_update_mono (le_refl _) ?_
    show (s.workqueues j).last - 1 ≤ (s.workqueues j).last
    omega
  refine ⟨?_, ?_, ?_, ?_, ?_, ?_, ?_, ?_, ?_, ?_, ?_, ?_, ?_, ?_⟩
  · have hpart := h.partEq
    unfold inflightItems queuedItems at hpart ⊢
    dsimp only
    calc (s.execd : Multiset Int)
          + Finset.sum (Finset.range (num_thread N T))
              (fun u => inflight (Function.update s.pcs w
                (PC.bWork j ((s.workqueues j).last - 1)) u))
          + Finset.sum (Finset.range (num_thread N T))
              (fun i => qItems (Function.update s.workqueues j
                ⟨(s.workqueues j).next, (s.workqueues j).last - 1, false⟩ i))
        = (s.execd : Multiset Int)
          + Finset.sum (Finset.range (num_thread N T)) (fun u => inflight (s.pcs u))
          + (Finset.sum (Finset.range (num_thread N T))
              (fun i => qItems (Function.update s.workqueues j
                ⟨(s.workqueues j).next, (s.workqueues j).last - 1, false⟩ i))
             + {(s.workqueues j).last - 1}) := by rw [hI]; abel
    _ = (s.execd : Multiset Int)
          + Finset.sum (Finset.range (num_thread N T)) (fun u => inflight (s.pcs u))
          + Finset.sum (Finset.range (num_thread N T))
              (fun i => qItems (s.workqueues i)) := by rw [hQ]
    _ = (Finset.Ico (0 : Int) (N : Int)).val := hpart
  · have hclaims := h.claimsEq
    unfold inflightItems at hclaims ⊢
    dsimp only
    rw [List.map_append, ← Multiset.coe_add]
    show ((s.claims.map Prod.snd : List Int) : Multiset Int)
        + (([(s.workqueues j).last - 1] : List Int) : Multiset Int) = _
    rw [Multiset.coe_singleton, hclaims, hI]
    abel
  · intro p hp
    dsimp only at hp
    rw [List.mem_append] at hp
    rcases hp with hp | hp
    · exact h.claimsSrc p hp
    · rw [List.mem_singleton] at hp
      subst hp
      refine ⟨hjn, ?_, ?_⟩
      · have := h.qmonoLo j hjn
        show init_next N T j ≤ (s.workqueues j).last - 1
        omega
      · have := h.qmonoHi j hjn
        show (s.workqueues j).last - 1 < init_last N T j
        omega
  · intro i hi
    dsimp only
    by_cases hij : i = j
    · subst hij
      rw [Function.update_same]
      exact h.qmonoLo i hi
    · rw [Function.update_noteq hij]
      exact h.qmonoLo i hi
  · intro i hi
    dsimp only
    by_cases hij : i = j
    · subst hij
      rw [Function.update_same]
      have := h.qmonoHi i hi
      show (s.workqueues i).last - 1 ≤ init_last N T i
      omega
    · rw [Function.update_noteq hij]
      exact h.qmonoHi i hi
  · intro u hu hB
    dsimp only at hB ⊢
    by_cases huw : u = w
    · subst huw
      rw [Function.update_same] at hB
      simp [inPhaseB] at hB
    · rw [Function.update_noteq huw] at hB
      by_cases huj : u = j
      · subst huj
        rw [Function.update_same]
        show (s.workqueues u).next ≤ (s.workqueues u).last - 1
        omega
      · rw [Function.update_noteq huj]
        exact h.phaseA u hu hB
  · intro u hu hB
    dsimp only at hB ⊢
    by_cases huw : u = w
    · subst huw
      rw [Function.update_noteq (by omega)]
      exact h.phaseB u hu (by rw [hpc]; rfl)
    · rw [Function.update_noteq huw] at hB
      by_cases huj : u = j
      · subst huj
        exfalso
        have := h.phaseB u hu hB
        omega
      · rw [Function.update_noteq huj]
        exact h.phaseB u hu hB
  · intro u hu c0 j0 hor
    dsimp only at hor
    by_cases huw : u = w
    · subst huw
      rw [Function.update_same] at hor
      rcases hor with h1 | h1 <;> cases h1
    · rw [Function.update_noteq huw] at hor
      exact h.acqBound u hu c0 j0 hor
  · intro u hu j0 hor j' hj' hj'w
    dsimp only at hor ⊢
    by_cases huw : u = w
    · subst huw
      rw [Function.update_same] at hor
      rcases hor with h1 | h1 | h1 <;> cases h1
    · rw [Function.update_noteq huw] at hor
      exact hmono j' (h.scanEmpty u hu j0 hor j' hj' hj'w)
  · intro u hu hb j' hj' hj'w
    dsimp only at hb ⊢
    by_cases huw : u = w
    · subst huw
      rw [Function.update_same] at hb
      cases hb
    · rw [Function.update_noteq huw] at hb
      exact hmono j' (h.loopEmpty u hu hb j' hj' hj'w)
  · intro u hu hb i hi
    dsimp only at hb ⊢
    by_cases huw : u = w
    · subst huw
      rw [Function.update_same] at hb
      cases hb
    · rw [Function.update_noteq huw] at hb
      exact hmono i (h.doneAll u hu hb i hi)
  · intro i hi
    dsimp only
    by_cases hij : i = j
    · subst hij
      rw [Function.update_same]
      constructor
      · intro hx
        cases hx
      · rintro ⟨u, hu, hold⟩
        exfalso
        by_cases huw : u = w
        · subst huw
          rw [Function.update_same] at hold
          cases hold
        · rw [Function.update_noteq huw] at hold
          have hWhold : holdsLock (s.pcs w) w i := by
            rw [hpc]
            exact rfl
          exact huw (h.lockUniq i u w hu hw hold hWhold)
    · rw [Function.update_noteq hij, h.lockIff i hi]
      constructor
      · rintro ⟨u, hu, hold⟩
        refine ⟨u, hu, ?_⟩
        by_cases huw : u = w
        · subst huw
          rw [hpc] at hold
          have : i = j := hold
          exact absurd this hij
        · rwa [Function.update_noteq huw]
      · rintro ⟨u, hu, hold⟩
        refine ⟨u, hu, ?_⟩
        by_cases huw : u = w
        · subst huw
          rw [Function.update_same] at hold
          cases hold
        · rwa [Function.update_noteq huw] at hold
  · intro i u u' hu hu' h1 h2
    dsimp only at h1 h2
    by_cases huw : u = w
    · subst huw
      rw [Function.update_same] at h1
      cases h1
    · by_cases huw' : u' = w
      · subst huw'
        rw [Function.update_same] at h2
        cases h2
      · rw [Function.update_noteq huw] at h1
        rw [Function.update_noteq huw'] at h2
        exact h.lockUniq i u u' hu hu' h1 h2
  · have hold := h.compSum
    unfold totalCompleted at hold ⊢
    dsimp only
    exact hold

theorem inv_step_bCrit_empty (N T w : Nat) (c : Bool) (j : Nat) (s : DispatchState)
    (h : DInv N T s) (hw : w < num_thread N T) (hpc : s.pcs w = PC.bCrit c j)
    (hguard : ¬ (s.workqueues j).next < (s.workqueues j).last) :
    DInv N T { s with
      workqueues := Function.update s.workqueues j
        ⟨(s.workqueues j).next, (s.workqueues j).last, false⟩
      pcs := Function.update s.pcs w (PC.bFor c (j + 1)) } := by
  obtain ⟨hjn, hjw⟩ := h.acqBound w hw c j (Or.inr hpc)
  have hQeq : Finset.sum (Finset.range (num_thread N T))
        (fun i => qItems (Function.update s.workqueues j
          ⟨(s.workqueues j).next, (s.workqueues j).last, false⟩ i))
      = Finset.sum (Finset.range (num_thread N T)) (fun i => qItems (s.workqueues i)) :=
    sum_update_eq hjn s.workqueues _ qItems rfl
  have hIeq : Finset.sum (Finset.range (num_thread N T))
        (fun u => inflight (Function.update s.pcs w (PC.bFor c (j + 1)) u))
      = Finset.sum (Finset.range (num_thread N T)) (fun u => inflight (s.pcs u)) :=
    sum_update_eq hw s.pcs (PC.bFor c (j + 1)) inflight (by rw [hpc]; rfl)
  have hEmp : ∀ i, emptyQ (Function.update s.workqueues j
        ⟨(s.workqueues j).next, (s.workqueues j).last, false⟩ i) ↔
      emptyQ (s.workqueues i) := emptyQ_update_of_eq rfl rfl
  have hnext : ∀ u, (Function.update s.workqueues j
      ⟨(s.workqueues j).next, (s.workqueues j).last, false⟩ u).next
      = (s.workqueues u).next := update_next_eq rfl
  have hlast : ∀ u, (Function.update s.workqueues j
      ⟨(s.workqueues j).next, (s.workqueues j).last, false⟩ u).last
      = (s.workqueues u).last := update_last_eq rfl
  refine ⟨?_, ?_, ?_, ?_, ?_, ?_, ?_, ?_, ?_, ?_, ?_, ?_, ?_, ?_⟩
  · have hpart := h.partEq
    unfold inflightItems queuedItems at hpart ⊢
    dsimp only
    rw [hQeq, hIeq]
    exact hpart
  · have hclaims := h.claimsEq
    unfold inflightItems at hclaims ⊢
    dsimp only
    rw [hIeq]
    exact hclaims
  · exact h.claimsSrc
  · intro i hi
    dsimp only
    rw [hnext i]
    exact h.qmonoLo i hi
  · intro i hi
    dsimp only
    rw [hlast i]
    exact h.qmonoHi i hi
  · intro u hu hB
    dsimp only at hB ⊢
    rw [hnext u, hlast u]
    by_cases huw : u = w
    · subst huw
      rw [Function.update_same] at hB
      simp [inPhaseB] at hB
    · rw [Function.update_noteq huw] at hB
      exact h.phaseA u hu hB
  · intro u hu hB
    dsimp only at hB ⊢
    rw [hnext u, hlast u]
    by_cases huw : u = w
    · subst huw
      exact h.phaseB u hu (by rw [hpc]; rfl)
    · rw [Function.update_noteq huw] at hB
      exact h.phaseB u hu hB
  · intro u hu c0 j0 hor
    dsimp only at hor
    by_cases huw : u = w
    · subst huw
      rw [Function.update_same] at hor
      rcases hor with h1 | h1 <;> cases h1
    · rw [Function.update_noteq huw] at hor
      exact h.acqBound u hu c0 j0 hor
  · intro u hu j0 hor j' hj' hj'w
    dsimp only at hor ⊢
    rw [hEmp j']
    by_cases huw : u = w
    · subst huw
      rw [Function.update_same] at hor
      rcases hor with h1 | h1 | h1
      · cases h1
        by_cases hj'j2 : j' = j
        · subst hj'j2
          unfold emptyQ
          omega
        · exact h.scanEmpty u hu j (Or.inr (Or.inr hpc)) j' (by omega) hj'w
      · cases h1
      · cases h1
    · rw [Function.update_noteq huw] at hor
      exact h.scanEmpty u hu j0 hor j' hj' hj'w
  · intro u hu hb j' hj' hj'w
    dsimp only at hb ⊢
    rw [hEmp j']
    by_cases huw : u = w
    · subst huw
      rw [Function.update_same] at hb
      cases hb
    · rw [Function.update_noteq huw] at hb
      exact h.loopEmpty u hu hb j' hj' hj'w
  · intro u hu hb i hi
    dsimp only at hb ⊢
    rw [hEmp i]
    by_cases huw : u = w
    · subst huw
      rw [Function.update_same] at hb
      cases hb
    · rw [Function.update_noteq huw] at hb
      exact h.doneAll u hu hb i hi
  · intro i hi
    dsimp only
    by_cases hij : i = j
    · subst hij
      rw [Function.update_same]
      constructor
      · intro hx
        cases hx
      · rintro ⟨u, hu, hold⟩
        exfalso
        by_cases huw : u = w
        · subst huw
          rw [Function.update_same] at hold
          cases hold
        · rw [Function.update_noteq huw] at hold
          have hWhold : holdsLock (s.pcs w) w i := by
            rw [hpc]
            exact rfl
          exact huw (h.lockUniq i u w hu hw hold hWhold)
    · rw [Function.update_noteq hij, h.lockIff i hi]
      constructor
      · rintro ⟨u, hu, hold⟩
        refine ⟨u, hu, ?_⟩
        by_cases huw : u = w
        · subst huw
          rw [hpc] at hold
          have : i = j := hold
          exact absurd this hij
        · rwa [Function.update_noteq huw]
      · rintro ⟨u, hu, hold⟩
        refine ⟨u, hu, ?_⟩
        by_cases huw : u = w
        · subst huw
          rw [Function.update_same] at hold
          cases hold
        · rwa [Function.update_noteq huw] at hold
  · intro i u u' hu hu' h1 h2
    dsimp only at h1 h2
    by_cases huw : u = w
    · subst huw
      rw [Function.update_same] at h1
      cases h1
    · by_cases huw' : u' = w
      · subst huw'
        rw [Function.update_same] at h2
        cases h2
      · rw [Function.update_noteq huw] at h1
        rw [Function.update_noteq huw'] at h2
        exact h.lockUniq i u u' hu hu' h1 h2
  · exact h.compSum

theorem inv_step (N T : Nat) (s s' : DispatchState) (w : Nat) (h : DInv N T s)
    (hs : ufunc_worker_step (num_thread N T) (num_thread N T) s w = some s') :
    DInv N T s' := by
  unfold ufunc_worker_step at hs
  split at hs
  case isFalse => cases hs
  rename_i hw
  split at hs
  case h_1 hpc =>
    -- aLock
    split at hs
    · cases hs
    · rename_i hlock
      injection hs with hs
      subst hs
      exact inv_step_aLock N T w s h hw hpc (by simpa using hlock)
  case h_2 hpc =>
    -- aCrit
    split at hs
    · rename_i hguard
      injection hs with hs
      subst hs
      exact inv_step_aCrit_term N T w s h hw hpc hguard
    · rename_i hguard
      injection hs with hs
      subst hs
      exact inv_step_aCrit_pop N T w s h hw hpc (by omega)
  case h_3 item hpc =>
    -- aWork
    injection hs with hs
    subst hs
    exact inv_step_aWork N T w item s h hw hpc
  case h_4 cont hpc =>
    -- bLoop
    split at hs
    · rename_i hcont
      injection hs with hs
      subst hs
      rw [hcont] at hpc
      refine inv_step_purepc N T w s h hw (PC.bFor false 0) (by rw [hpc]; rfl)
        (by rw [hpc]; rfl) ?_ ?_ ?_ ?_ ?_ ?_
      · intro c j hor
        rcases hor with h1 | h1 <;> cases h1
      · intro j hor j' hj' hj'w
        rcases hor with h1 | h1 | h1
        · cases h1
          omega
        · cases h1
        · cases h1
      · intro h1
        cases h1
      · intro h1
        cases h1
      · intro i hh
        exact hh
      · intro i hh
        rw [hpc] at hh
        exact hh
    · rename_i hcont
      injection hs with hs
      subst hs
      have hcf : cont = false := by
        cases cont
        · rfl
        · exact absurd rfl hcont
      rw [hcf] at hpc
      refine inv_step_purepc N T w s h hw PC.wDone (by rw [hpc]; rfl)
        (by rw [hpc]; rfl) ?_ ?_ ?_ ?_ ?_ ?_
      · intro c j hor
        rcases hor with h1 | h1 <;> cases h1
      · intro j hor j' hj' hj'w
        rcases hor with h1 | h1 | h1 <;> cases h1
      · intro h1
        cases h1
      · intro _ i hi
        by_cases hiw : i = w
        · subst hiw
          have := h.phaseB i hw (by rw [hpc]; rfl)
          unfold emptyQ
          omega
        · exact h.loopEmpty w hw hpc i hi (by omega)
      · intro i hh
        exact hh
      · intro i hh
        rw [hpc] at hh
        exact hh
  case h_5 cont j hpc =>
    -- bFor
    split at hs
    · rename_i hnj
      injection hs with hs
      subst hs
      refine inv_step_purepc N T w s h hw (PC.bLoop cont) (by rw [hpc]; rfl)
        (by rw [hpc]; rfl) ?_ ?_ ?_ ?_ ?_ ?_
      · intro c j0 hor
        rcases hor with h1 | h1 <;> cases h1
      · intro j0 hor j' hj' hj'w
        rcases hor with h1 | h1 | h1 <;> cases h1
      · intro h1
        cases h1
        intro j' hj' hj'w
        exact h.scanEmpty w hw j (Or.inl hpc) j' (by omega) hj'w
      · intro h1
        cases h1
      · intro i hh
        exact hh
      · intro i hh
        rw [hpc] at hh
        exact hh
    · split at hs
      · rename_i hnj hjw
        injection hs with hs
        subst hs
        refine inv_step_purepc N T w s h hw (PC.bFor cont (j + 1)) (by rw [hpc]; rfl)
          (by rw [hpc]; rfl) ?_ ?_ ?_ ?_ ?_ ?_
        · intro c j0 hor
          rcases hor with h1 | h1 <;> cases h1
        · intro j0 hor j' hj' hj'w
          rcases hor with h1 | h1 | h1
          · cases h1
            by_cases hj'j : j' = j
            · subst hj'j
              exact absurd hjw (by omega)
            · exact h.scanEmpty w hw j (Or.inl hpc) j' (by omega) hj'w
          · cases h1
          · cases h1
        · intro h1
          cases h1
        · intro h1
          cases h1
        · intro i hh
          exact hh
        · intro i hh
          rw [hpc] at hh
          exact hh
      · rename_i hnj hjw
        injection hs with hs
        subst hs
        refine inv_step_purepc N T w s h hw (PC.bAcq cont j) (by rw [hpc]; rfl)
          (by rw [hpc]; rfl) ?_ ?_ ?_ ?_ ?_ ?_
        · intro c j0 hor
          rcases hor with h1 | h1
          · cases h1
            exact ⟨by omega, by omega⟩
          · cases h1
        · intro j0 hor j' hj' hj'w
          rcases hor with h1 | h1 | h1
          · cases h1
          · cases h1
            exact h.scanEmpty w hw j (Or.inl hpc) j' hj' hj'w
          · cases h1
        · intro h1
          cases h1
        · intro h1
          cases h1
        · intro i hh
          exact hh
        · intro i hh
          rw [hpc] at hh
          exact hh
  case h_6 cont j hpc =>
    -- bAcq
    split at hs
    · cases hs
    · rename_i hlock
      injection hs with hs
      subst hs
      exact inv_step_bAcq N T w cont j s h hw hpc (by simpa using hlock)
  case h_7 cont j hpc =>
    -- bCrit
    split at hs
    · rename_i hguard
      injection hs with hs
      subst hs
      exact inv_step_bCrit_steal N T w cont j s h hw hpc hguard
    · rename_i hguard
      injection hs with hs
      subst hs
      exact inv_step_bCrit_empty N T w cont j s h hw hpc hguard
  case h_8 j item hpc =>
    -- bWork
    injection hs with hs
    subst hs
    exact inv_step_bWork N T w j item s h hw hpc
  case h_9 hpc =>
    cases hs

theorem inv_reach (N T : Nat) (g : Nat → WorkQueue) (hreg : num_thread N T = T)
    (s : DispatchState) (hr : Reach N T g s) : DInv N T s := by
  unfold Reach at hr
  induction hr with
  | refl => exact inv_init N T g
  | tail hrt hstep ih =>
      obtain ⟨w, hw⟩ := hstep
      refine inv_step N T _ _ w ih ?_
      rw [hreg]
      rw [hreg] at hw
      exact hw

theorem step_ne_none_of_aCrit (n m : Nat) (s : DispatchState) (u : Nat) (hu : u < n)
    (hpc : s.pcs u = PC.aCrit) : ufunc_worker_step n m s u ≠ none := by
  intro hcon
  unfold ufunc_worker_step at hcon
  rw [if_pos hu] at hcon
  simp only [hpc] at hcon
  split at hcon <;> cases hcon

theorem step_ne_none_of_bCrit (n m : Nat) (s : DispatchState) (u : Nat) (c : Bool)
    (j : Nat) (hu : u < n) (hpc : s.pcs u = PC.bCrit c j) :
    ufunc_worker_step n m s u ≠ none := by
  intro hcon
  unfold ufunc_worker_step at hcon
  rw [if_pos hu] at hcon
  simp only [hpc] at hcon
  split at hcon <;> cases hcon

theorem terminal_all_done (N T : Nat) (s : DispatchState) (h : DInv N T s)
    (ht : Terminal (num_thread N T) (num_thread N T) s) :
    ∀ w, w < num_thread N T → s.pcs w = PC.wDone := by
  intro w hw
  have hs := ht w hw
  unfold ufunc_worker_step at hs
  rw [if_pos hw] at hs
  cases hpc : s.pcs w
  case wDone => rfl
  case aLock =>
    exfalso
    simp only [hpc] at hs
    split at hs
    · rename_i hlock
      obtain ⟨u, hu, hold⟩ := (h.lockIff w hw).mp (by simpa using hlock)
      rcases holdsLock_elim hold with ⟨hpcu, hwu⟩ | ⟨c, j, hpcu, hwj⟩
      · rw [← hwu, hpc] at hpcu
        cases hpcu
      · exact step_ne_none_of_bCrit _ _ s u c j hu hpcu (ht u hu)
    · cases hs
  case aCrit =>
    exfalso
    simp only [hpc] at hs
    split at hs <;> cases hs
  case aWork item =>
    exfalso
    simp only [hpc] at hs
    cases hs
  case bLoop cont =>
    exfalso
    simp only [hpc] at hs
    split at hs <;> cases hs
  case bFor cont j =>
    exfalso
    simp only [hpc] at hs
    split at hs
    · cases hs
    · split at hs <;> cases hs
  case bAcq cont j =>
    exfalso
    simp only [hpc] at hs
    split at hs
    · rename_i hlock
      obtain ⟨hjn, hjw⟩ := h.acqBound w hw cont j (Or.inl hpc)
      obtain ⟨u, hu, hold⟩ := (h.lockIff j hjn).mp (by simpa using hlock)
      rcases holdsLock_elim hold with ⟨hpcu, hju⟩ | ⟨c, j0, hpcu, hjj0⟩
      · exact step_ne_none_of_aCrit _ _ s u hu hpcu (ht u hu)
      · exact step_ne_none_of_bCrit _ _ s u c j0 hu hpcu (ht u hu)
    · cases hs
  case bCrit cont j =>
    exfalso
    simp only [hpc] at hs
    split at hs <;> cases hs
  case bWork j item =>
    exfalso
    simp only [hpc] at hs
    cases hs

theorem terminal_coverage (N T : Nat) (s : DispatchState) (h : DInv N T s)
    (hdone : ∀ w, w < num_thread N T → s.pcs w = PC.wDone) :
    (s.execd : Multiset Int) = (Finset.Ico (0 : Int) (N : Int)).val ∧
    totalCompleted (num_thread N T) s = N := by
  have hI : Finset.sum (Finset.range (num_thread N T))
      (fun u => inflight (s.pcs u)) = 0 := by
    refine Finset.sum_eq_zero ?_
    intro u hu
    rw [Finset.mem_range] at hu
    rw [hdone u hu]
    rfl
  have hQ : Finset.sum (Finset.range (num_thread N T))
      (fun i => qItems (s.workqueues i)) = 0 := by
    by_cases hn : num_thread N T = 0
    · rw [hn]
      simp
    · refine Finset.sum_eq_zero ?_
      intro i hi
      rw [Finset.mem_range] at hi
      exact qItems_eq_zero_of_empty
        (h.doneAll 0 (by omega) (hdone 0 (by omega)) i hi)
  have hpart := h.partEq
  unfold inflightItems queuedItems at hpart
  rw [hI, hQ, add_zero, add_zero] at hpart
  refine ⟨hpart, ?_⟩
  have hlen : s.execd.length = N := by
    have hcard := congrArg Multiset.card hpart
    rw [Multiset.coe_card] at hcard
    have : (Finset.Ico (0 : Int) (N : Int)).val.card = N := by
      show (Finset.Ico (0 : Int) (N : Int)).card = N
      rw [Int.card_Ico]
      omega
    omega
  rw [h.compSum, hlen]

theorem qsize_update_eq {n j : Nat} (hj : j < n) (wq : Nat → WorkQueue)
    (q' : WorkQueue) (hg : (q'.last - q'.next).toNat
      = ((wq j).last - (wq j).next).toNat) :
    Finset.sum (Finset.range n)
        (fun i => ((Function.update wq j q' i).last
          - (Function.update wq j q' i).next).toNat)
      = Finset.sum (Finset.range n) (fun i => ((wq i).last - (wq i).next).toNat) :=
  sum_update_eq hj wq q' (fun q => (q.last - q.next).toNat) hg

theorem pcMeasure_aLock (n : Nat) : pcMeasure n PC.aLock = 4 * n + 7 := rfl

theorem pcMeasure_aCrit (n : Nat) : pcMeasure n PC.aCrit = 4 * n + 6 := rfl

theorem pcMeasure_aWork (n : Nat) (it : Int) :
    pcMeasure n (PC.aWork it) = 4 * n + 8 := rfl

theorem pcMeasure_bLoopT (n : Nat) : pcMeasure n (PC.bLoop true) = 4 * n + 5 := rfl

theorem pcMeasure_bLoopF (n : Nat) : pcMeasure n (PC.bLoop false) = 1 := rfl

theorem pcMeasure_wDone (n : Nat) : pcMeasure n PC.wDone = 0 := rfl

theorem pcMeasure_bFor (n : Nat) (c : Bool) (j : Nat) :
    pcMeasure n (PC.bFor c j)
      = (if c then 4 * n + 3 else 0) + (n - j) * 4 + 3 := rfl

theorem pcMeasure_bForT (n j : Nat) :
    pcMeasure n (PC.bFor true j) = (4 * n + 3) + (n - j) * 4 + 3 := rfl

theorem pcMeasure_bForF (n j : Nat) :
    pcMeasure n (PC.bFor false j) = (n - j) * 4 + 3 := by
  rw [pcMeasure_bFor]
  simp

theorem pcMeasure_bAcq (n : Nat) (c : Bool) (j : Nat) :
    pcMeasure n (PC.bAcq c j)
      = (if c then 4 * n + 3 else 0) + (n - j) * 4 + 2 := rfl

theorem pcMeasure_bCrit (n : Nat) (c : Bool) (j : Nat) :
    pcMeasure n (PC.bCrit c j)
      = (if c then 4 * n + 3 else 0) + (n - j) * 4 + 1 := rfl

theorem pcMeasure_bWork (n j : Nat) (it : Int) :
    pcMeasure n (PC.bWork j it) = (4 * n + 3) + (n - j) * 4 + 10 := rfl

theorem step_measure_decrease (N T : Nat) (s s' : DispatchState) (w : Nat)
    (h : DInv N T s)
    (hs : ufunc_worker_step (num_thread N T) (num_thread N T) s w = some s') :
    remWork (num_thread N T) s' < remWork (num_thread N T) s ∨
    (remWork (num_thread N T) s' = remWork (num_thread N T) s ∧
     sysMeasure (num_thread N T) s' < sysMeasure (num_thread N T) s) := by
  unfold ufunc_worker_step at hs
  split at hs
  case isFalse => cases hs
  rename_i hw
  split at hs
  case h_1 hpc =>
    split at hs
    · cases hs
    · injection hs with hs
      subst hs
      right
      constructor
      · unfold remWork
        dsimp only
        exact qsize_update_eq hw s.workqueues _ rfl
      · have hM := sum_update_add hw s.pcs PC.aCrit (pcMeasure (num_thread N T))
        rw [hpc] at hM
        unfold sysMeasure
        dsimp only
        rw [pcMeasure_aLock, pcMeasure_aCrit] at hM
        omega
  case h_2 hpc =>
    split at hs
    · rename_i hguard
      injection hs with hs
      subst hs
      right
      constructor
      · unfold remWork
        dsimp only
        refine qsize_update_eq hw s.workqueues _ ?_
        show ((s.workqueues w).last - ((s.workqueues w).next + 1)).toNat
          = ((s.workqueues w).last - (s.workqueues w).next).toNat
        omega
      · have hM := sum_update_add hw s.pcs (PC.bLoop true) (pcMeasure (num_thread N T))
        rw [hpc] at hM
        unfold sysMeasure
        dsimp only
        rw [pcMeasure_aCrit, pcMeasure_bLoopT] at hM
        omega
    · rename_i hguard
      injection hs with hs
      subst hs
      left
      have hR := sum_update_add hw s.workqueues
          (⟨(s.workqueues w).next + 1, (s.workqueues w).last, false⟩ : WorkQueue)
          (fun q => (q.last - q.next).toNat)
      unfold remWork
      dsimp only
      dsimp only at hR
      omega
  case h_3 item hpc =>
    injection hs with hs
    subst hs
    right
    refine ⟨rfl, ?_⟩
    have hM := sum_update_add hw s.pcs PC.aLock (pcMeasure (num_thread N T))
    rw [hpc] at hM
    unfold sysMeasure
    dsimp only
    rw [pcMeasure_aWork, pcMeasure_aLock] at hM
    omega
  case h_4 cont hpc =>
    split at hs
    · rename_i hcont
      injection hs with hs
      subst hs
      right
      refine ⟨rfl, ?_⟩
      have hM := sum_update_add hw s.pcs (PC.bFor false 0) (pcMeasure (num_thread N T))
      rw [hpc, hcont] at hM
      unfold sysMeasure
      dsimp only
      rw [pcMeasure_bLoopT, pcMeasure_bForF] at hM
      omega
    · rename_i hcont
      have hcf : cont = false := by
        cases cont
        · rfl
        · exact absurd rfl hcont
      injection hs with hs
      subst hs
      right
      refine ⟨rfl, ?_⟩
      have hM := sum_update_add hw s.pcs PC.wDone (pcMeasure (num_thread N T))
      rw [hpc, hcf] at hM
      unfold sysMeasure
      dsimp only
      rw [pcMeasure_bLoopF, pcMeasure_wDone] at hM
      omega
  case h_5 cont j hpc =>
    split at hs
    · rename_i hnj
      injection hs with hs
      subst hs
      right
      refine ⟨rfl, ?_⟩
      have hM := sum_update_add hw s.pcs (PC.bLoop cont) (pcMeasure (num_thread N T))
      rw [hpc] at hM
      unfold sysMeasure
      dsimp only
      cases cont
      · rw [pcMeasure_bForF, pcMeasure_bLoopF] at hM
        omega
      · rw [pcMeasure_bForT, pcMeasure_bLoopT] at hM
        omega
    · split at hs
      · rename_i hnj hjw
        injection hs with hs
        subst hs
        right
        refine ⟨rfl, ?_⟩
        have hM := sum_update_add hw s.pcs (PC.bFor cont (j + 1))
            (pcMeasure (num_thread N T))
        rw [hpc] at hM
        unfold sysMeasure
        dsimp only
        rw [pcMeasure_bFor, pcMeasure_bFor] at hM
        omega
      · rename_i hnj hjw
        injection hs with hs
        subst hs
        right
        refine ⟨rfl, ?_⟩
        have hM := sum_update_add hw s.pcs (PC.bAcq cont j)
            (pcMeasure (num_thread N T))
        rw [hpc] at hM
        unfold sysMeasure
        dsimp only
        rw [pcMeasure_bFor, pcMeasure_bAcq] at hM
        omega
  case h_6 cont j hpc =>
    split at hs
    · cases hs
    · injection hs with hs
      subst hs
      obtain ⟨hjn, hjw⟩ := h.acqBound w hw cont j (Or.inl hpc)
      right
      constructor
      · unfold remWork
        dsimp only
        exact qsize_update_eq hjn s.workqueues _ rfl
      · have hM := sum_update_add hw s.pcs (PC.bCrit cont j)
            (pcMeasure (num_thread N T))
        rw [hpc] at hM
        unfold sysMeasure
        dsimp only
        rw [pcMeasure_bAcq, pcMeasure_bCrit] at hM
        omega
  case h_7 cont j hpc =>
    obtain ⟨hjn, hjw⟩ := h.acqBound w hw cont j (Or.inr hpc)
    split at hs
    · rename_i hguard
      injection hs with hs
      subst hs
      left
      have hR := sum_update_add hjn s.workqueues
          (⟨(s.workqueues j).next, (s.workqueues j).last - 1, false⟩ : WorkQueue)
          (fun q => (q.last - q.next).toNat)
      unfold remWork
      dsimp only
      dsimp only at hR
      omega
    · rename_i hguard
      injection hs with hs
      subst hs
      right
      constructor
      · unfold remWork
        dsimp only
        exact qsize_update_eq hjn s.workqueues _ rfl
      · have hM := sum_update_add hw s.pcs (PC.bFor cont (j + 1))
            (pcMeasure (num_thread N T))
        rw [hpc] at hM
        unfold sysMeasure
        dsimp only
        rw [pcMeasure_bCrit, pcMeasure_bFor] at hM
        omega
  case h_8 j item hpc =>
    injection hs with hs
    subst hs
    right
    refine ⟨rfl, ?_⟩
    have hM := sum_update_add hw s.pcs (PC.bFor true (j + 1))
        (pcMeasure (num_thread N T))
    rw [hpc] at hM
    unfold sysMeasure
    dsimp only
    rw [pcMeasure_bWork, pcMeasure_bForT] at hM
    omega
  case h_9 hpc =>
    cases hs

theorem pcMeasure_le (n : Nat) (pc : PC) : pcMeasure n pc ≤ 8 * n + 13 := by
  cases pc
  case aLock => rw [pcMeasure_aLock]; omega
  case aCrit => rw [pcMeasure_aCrit]; omega
  case aWork it => rw [pcMeasure_aWork]; omega
  case bLoop c =>
    cases c
    · rw [pcMeasure_bLoopF]; omega
    · rw [pcMeasure_bLoopT]; omega
  case bFor c j =>
    rw [pcMeasure_bFor]
    have : n - j ≤ n := Nat.sub_le n j
    split <;> omega
  case bAcq c j =>
    rw [pcMeasure_bAcq]
    have : n - j ≤ n := Nat.sub_le n j
    split <;> omega
  case bCrit c j =>
    rw [pcMeasure_bCrit]
    have : n - j ≤ n := Nat.sub_le n j
    split <;> omega
  case bWork j it =>
    rw [pcMeasure_bWork]
    have : n - j ≤ n := Nat.sub_le n j
    omega
  case wDone => rw [pcMeasure_wDone]; omega

theorem sysMeasure_le (n : Nat) (s : DispatchState) :
    sysMeasure n s ≤ n * (8 * n + 13) := by
  unfold sysMeasure
  calc Finset.sum (Finset.range n) (fun w => pcMeasure n (s.pcs w))
      ≤ Finset.sum (Finset.range n) (fun _ => 8 * n + 13) :=
        Finset.sum_le_sum (fun i _ => pcMeasure_le n (s.pcs i))
  _ = n * (8 * n + 13) := by
      rw [Finset.sum_const, Finset.card_range, smul_eq_mul]

theorem no_infinite_run (N T : Nat) (g : Nat → WorkQueue) (f : Nat → DispatchState)
    (h0 : f 0 = initState N T g)
    (hstep : ∀ k, SysStep (num_thread N T) (num_thread N T) (f k) (f (k + 1))) :
    False := by
  have hinv : ∀ k, DInv N T (f k) := by
    intro k
    induction k with
    | zero =>
        rw [h0]
        exact inv_init N T g
    | succ k ih =>
        obtain ⟨w, hw⟩ := hstep k
        exact inv_step N T _ _ w ih hw
  have hdec : ∀ k,
      remWork (num_thread N T) (f (k + 1))
          * (num_thread N T * (8 * num_thread N T + 13) + 1)
        + sysMeasure (num_thread N T) (f (k + 1))
      < remWork (num_thread N T) (f k)
          * (num_thread N T * (8 * num_thread N T + 13) + 1)
        + sysMeasure (num_thread N T) (f k) := by
    intro k
    obtain ⟨w, hw⟩ := hstep k
    have hd := step_measure_decrease N T (f k) (f (k + 1)) w (hinv k) hw
    have hb1 := sysMeasure_le (num_thread N T) (f k)
    have hb2 := sysMeasure_le (num_thread N T) (f (k + 1))
    rcases hd with hlt | ⟨heq, hlt⟩
    · have key : (remWork (num_thread N T) (f (k + 1)) + 1)
          * (num_thread N T * (8 * num_thread N T + 13) + 1)
          ≤ remWork (num_thread N T) (f k)
            * (num_thread N T * (8 * num_thread N T + 13) + 1) :=
        Nat.mul_le_mul_right _ (by omega)
      rw [Nat.succ_mul] at key
      omega
    · rw [heq]
      omega
  have hbound : ∀ k,
      remWork (num_thread N T) (f k)
          * (num_thread N T * (8 * num_thread N T + 13) + 1)
        + sysMeasure (num_thread N T) (f k) + k
      ≤ remWork (num_thread N T) (f 0)
          * (num_thread N T * (8 * num_thread N T + 13) + 1)
        + sysMeasure (num_thread N T) (f 0) := by
    intro k
    induction k with
    | zero => omega
    | succ k ih =>
        have := hdec k
        omega
  have := hbound (remWork (num_thread N T) (f 0)
      * (num_thread N T * (8 * num_thread N T + 13) + 1)
    + sysMeasure (num_thread N T) (f 0) + 1)
  omega

/-- C1 (code bug): `ParallelUFunc.body` stores `common.num_thread` at line
129, BEFORE the small-N overwrite of the local `num_thread` at line 143, so
the Phase B scan `for i in range(common.num_thread)` (line 286) runs over all
`ThreadCount` queues although `_populate_workqueues` initialized only
`[0, num_thread)`.  At `ThreadCount = 2, N = 1`, with the uninitialized
`workqueues[1]` reading as `next = 5, last = 6, lock = 0`, the single worker
"steals" and executes the phantom index 5: the dispatch terminates having
handed `[0, 5]` to `_do_work` — an index outside `[0, N) = [0, 1)` — and the
`completed` counters sum to `2 ≠ N`, so the audit aborts even this race-free
run.  The claim (and spec sections 4.3, 4.4 and 8, which promise that queues
`≥ num_thread` are never observed) is the intent; the early store at line 129
is the slip.  Under the intended scan bound `num_thread` the claimed property
is proved in `terminal_coverage` together with `terminal_all_done`. -/
theorem C1_coverage_bug :
    Reach 1 2 gSteal run12 ∧ Terminal (num_thread 1 2) 2 run12 ∧
    run12.execd = [0, 5] ∧
    (5 : Int) ∉ Finset.Ico (0 : Int) ((1 : Nat) : Int) ∧
    totalCompleted (num_thread 1 2) run12 = 2 ∧ (2 : Nat) ≠ (1 : Nat) := by
  have hrun : runSched (num_thread 1 2) 2 (initState 1 2 gSteal) sched12
      = some run12 := rfl
  have hr : Reach 1 2 gSteal run12 :=
    reach_of_run (num_thread 1 2) 2 sched12 _ _ hrun
  have ht : Terminal (num_thread 1 2) 2 run12 := by
    intro w hw
    have hn : num_thread 1 2 = 1 := rfl
    rw [hn] at hw
    have hw0 : w = 0 := by omega
    subst hw0
    rfl
  refine ⟨hr, ht, rfl, ?_, rfl, by omega⟩
  intro hmem
  rw [Finset.mem_Ico] at hmem
  omega

/-- C2: after queue initialization (for `N ≥ 1`), worker `i` owns
`[i*ChunkSize, (i+1)*ChunkSize)` except that the last worker's `last` is
overwritten with `N`; the initial ranges are pairwise disjoint, their union
is `[0, N)`, and their lengths sum to `N` — also when
`N % ThreadCount ≠ 0`. -/
theorem C2_initial_partition (N T : Nat) (qs0 : List WorkQueue)
    (hlen : qs0.length = T) (hT : 1 ≤ T) (hN : 1 ≤ N) :
    (∃ out, populate_workqueues qs0 (N : Int) ((ChunkSize N T : Nat) : Int)
        (num_thread N T) = some out ∧
      ∀ i, i < num_thread N T → out[i]? = some (initQueue N T i)) ∧
    (∀ i j, i < j → j < num_thread N T →
      Disjoint (Finset.Ico (init_next N T i) (init_last N T i))
        (Finset.Ico (init_next N T j) (init_last N T j))) ∧
    ((Finset.range (num_thread N T)).biUnion
        (fun i => Finset.Ico (init_next N T i) (init_last N T i))
      = Finset.Ico (0 : Int) (N : Int)) ∧
    (Finset.sum (Finset.range (num_thread N T))
        (fun i => init_last N T i - init_next N T i) = (N : Int)) := by
  have hn1 : 1 ≤ num_thread N T := by
    have h0 := num_thread_eq_zero_iff N T
    by_cases hz : num_thread N T = 0
    · exact absurd (h0.mp hz) (by omega)
    · omega
  refine ⟨?_, ?_, ?_, ?_⟩
  · obtain ⟨out, h1, h2, h3⟩ := populate_workqueues_eq N T qs0 hlen hT hn1
    exact ⟨out, h1, h3⟩
  · intro i j hij hj
    refine ico_disjoint_of_le ?_
    rw [init_last_eq_bnd N T i (by omega), init_next_eq_bnd N T j hj]
    exact bnd_monotone N T (by omega)
  · have hcong : (Finset.range (num_thread N T)).biUnion
        (fun i => Finset.Ico (init_next N T i) (init_last N T i))
        = (Finset.range (num_thread N T)).biUnion
            (fun i => Finset.Ico (bnd N T i) (bnd N T (i + 1))) := by
      refine Finset.biUnion_congr rfl ?_
      intro i hi
      rw [Finset.mem_range] at hi
      rw [init_next_eq_bnd N T i hi, init_last_eq_bnd N T i hi]
    rw [hcong, ico_biUnion_telescope (bnd N T) (bnd_mono N T) (num_thread N T),
        bnd_zero N T hn1, bnd_top N T]
  · have hcong : Finset.sum (Finset.range (num_thread N T))
        (fun i => init_last N T i - init_next N T i)
        = Finset.sum (Finset.range (num_thread N T))
            (fun i => bnd N T (i + 1) - bnd N T i) := by
      refine Finset.sum_congr rfl ?_
      intro i hi
      rw [Finset.mem_range] at hi
      rw [init_next_eq_bnd N T i hi, init_last_eq_bnd N T i hi]
    rw [hcong, Finset.sum_range_sub (bnd N T) (num_thread N T),
        bnd_zero N T hn1, bnd_top N T, sub_zero]

theorem C2_witness :
    (∃ out, populate_workqueues (List.replicate 4 ⟨0, 0, false⟩) ((17 : Nat) : Int)
        ((ChunkSize 17 4 : Nat) : Int) (num_thread 17 4) = some out ∧
      ∀ i, i < num_thread 17 4 → out[i]? = some (initQueue 17 4 i)) ∧
    (∀ i j, i < j → j < num_thread 17 4 →
      Disjoint (Finset.Ico (init_next 17 4 i) (init_last 17 4 i))
        (Finset.Ico (init_next 17 4 j) (init_last 17 4 j))) ∧
    ((Finset.range (num_thread 17 4)).biUnion
        (fun i => Finset.Ico (init_next 17 4 i) (init_last 17 4 i))
      = Finset.Ico (0 : Int) ((17 : Nat) : Int)) ∧
    (Finset.sum (Finset.range (num_thread 17 4))
        (fun i => init_last 17 4 i - init_next 17 4 i) = ((17 : Nat) : Int)) :=
  C2_initial_partition 17 4 (List.replicate 4 ⟨0, 0, false⟩) rfl
    (by omega) (by omega)

/-- C3 (code bug): the audit loop is generated from
`for t in range(ThreadCount)`, so it sums ALL `ThreadCount` completed slots
although `_populate_context` initialized only `[0, num_thread)`.  At
`ThreadCount = 4, N = 1` with garbage value 5 in uninitialized slot 1, the
code's sum is `6 ≠ 1` and the dispatch aborts although every iteration ran
exactly once; the sum the claim describes — over `[0, num_thread)` — is
`1 = N` and would not abort. -/
theorem C3_audit_range_bug :
    total_completed 4 c3ctx = 6 ∧ audit_aborts 4 (1 : Int) c3ctx ∧
    Finset.sum (Finset.range (num_thread 1 4)) c3ctx = 1 := by
  unfold audit_aborts total_completed c3ctx num_thread
  refine ⟨by decide, by decide, by decide⟩

/-- C4 (code bug): at `N = 0` the dispatcher sets `num_thread := 0`, and
`_populate_workqueues` then writes `workqueues[num_thread - 1]`, i.e.
`workqueues[-1]` — an out-of-bounds access (modelled as `none`); the dispatch
does not return cleanly. -/
theorem C4_n_zero_oob :
    num_thread 0 4 = 0 ∧ ChunkSize 0 4 = 1 ∧
    populate_workqueues (List.replicate 4 ⟨0, 0, false⟩) ((0 : Nat) : Int)
      ((ChunkSize 0 4 : Nat) : Int) (num_thread 0 4) = none := by
  refine ⟨by decide, by decide, by decide⟩

/-- C5 counterexample: "whenever the lock is free, `next ≤ last`" is false:
after worker 0's terminating pop in an `N = 1, ThreadCount = 1` dispatch
(`num_thread = ThreadCount = 1`, so no uninitialized slot is ever read),
queue 0 is lock-free with `next = 2 > last = 1`. -/
theorem C5_counterexample :
    ¬ (∀ N T : Nat, 1 ≤ T → ∀ g s, Reach N T g s →
        ∀ i, i < num_thread N T → (s.workqueues i).lock = false →
          (s.workqueues i).next ≤ (s.workqueues i).last) := by
  intro hclaim
  have hrun : runSched (num_thread 1 1) 1 (initState 1 1 gZero) sched11a
      = some run11a := rfl
  have hr : Reach 1 1 gZero run11a :=
    reach_of_run (num_thread 1 1) 1 sched11a _ _ hrun
  have h := hclaim 1 1 (le_refl 1) gZero run11a hr 0 (by decide) rfl
  have h2 : (run11a.workqueues 0).next = 2 := rfl
  have h3 : (run11a.workqueues 0).last = 1 := rfl
  rw [h2, h3] at h
  omega

/-- C5 amended: in every dispatch whose stored scan bound equals the number
of initialized queues (`num_thread N T = T`, i.e. `N ≥ ThreadCount`; for
`0 < N < ThreadCount` the Phase B scan also reads the uninitialized queues
`[num_thread, ThreadCount)`, on which no bound holds — see C1), every
workqueue of a reachable state satisfies: `next ≤ last + 1` always;
`next ≤ last` as long as the owner is still in Phase A (so it can fail only
after the owner's terminating pop, which leaves `next = last + 1` with the
queue already empty); and the queue is empty exactly when `next ≥ last`. -/
theorem C5_amended_queue_invariant (N T : Nat) (g : Nat → WorkQueue)
    (hreg : num_thread N T = T) (s : DispatchState) (hr : Reach N T g s) :
    ∀ i, i < num_thread N T →
      ((s.workqueues i).next ≤ (s.workqueues i).last + 1) ∧
      (inPhaseB (s.pcs i) = false →
        (s.workqueues i).next ≤ (s.workqueues i).last) ∧
      (qItems (s.workqueues i) = 0 ↔
        (s.workqueues i).last ≤ (s.workqueues i).next) := by
  intro i hi
  have h := inv_reach N T g hreg s hr
  refine ⟨?_, h.phaseA i hi, ?_⟩
  · cases hB : inPhaseB (s.pcs i)
    · have := h.phaseA i hi hB
      omega
    · have := h.phaseB i hi hB
      omega
  · unfold qItems
    rw [Finset.val_eq_zero, Finset.Ico_eq_empty_iff]
    omega

theorem C5_witness :
    num_thread 1 1 = 1 ∧ Reach 1 1 gZero (initState 1 1 gZero) ∧
    (∀ i, i < num_thread 1 1 →
      (((initState 1 1 gZero).workqueues i).next
        ≤ ((initState 1 1 gZero).workqueues i).last + 1) ∧
      (inPhaseB ((initState 1 1 gZero).pcs i) = false →
        ((initState 1 1 gZero).workqueues i).next
          ≤ ((initState 1 1 gZero).workqueues i).last) ∧
      (qItems ((initState 1 1 gZero).workqueues i) = 0 ↔
        ((initState 1 1 gZero).workqueues i).last
          ≤ ((initState 1 1 gZero).workqueues i).next)) :=
  ⟨rfl, Relation.ReflTransGen.refl,
   C5_amended_queue_invariant 1 1 gZero rfl (initState 1 1 gZero)
     Relation.ReflTransGen.refl⟩

/-- Under the intended scan bound (`scanN = num_thread`), the claim history
of any state satisfying the invariant has pairwise distinct indices: each
index is claimed at most once, by exactly one critical section. -/
theorem claims_nodup (N T : Nat) (s : DispatchState) (h : DInv N T s) :
    (s.claims.map Prod.snd).Nodup := by
  have hle : ((s.claims.map Prod.snd : List Int) : Multiset Int)
      ≤ (Finset.Ico (0 : Int) (N : Int)).val := by
    rw [h.claimsEq]
    exact Multiset.le_iff_exists_add.mpr
      ⟨queuedItems (num_thread N T) s, h.partEq.symm⟩
  exact Multiset.coe_nodup.mp
    (Multiset.nodup_of_le hle (Finset.Ico (0 : Int) (N : Int)).nodup)

/-- C6 (code bug): because the Phase B scan bound is the stored
`common.num_thread = ThreadCount` (line 129, before the line-143 overwrite),
a thief also "steals" from the uninitialized queues `[num_thread,
ThreadCount)`.  At `ThreadCount = 2, N = 1` with the uninitialized
`workqueues[1]` reading as `next = 0, last = 1, lock = 0`, worker 0 claims
index 0 from its own queue and then claims index 0 AGAIN from the phantom
queue 1, and `_do_work(0)` runs twice — refuting at-most-once claiming.  The
claim describes the intended protocol (spec section 4.3 promises queues
`≥ num_thread` are never observed), which is proved for the intended scan
bound in `claims_nodup`; the early store at line 129 is the slip. -/
theorem C6_duplicate_claim_bug :
    Reach 1 2 gDup run12d ∧
    run12d.claims = [(0, 0), (1, 0)] ∧
    ¬ (run12d.claims.map Prod.snd).Nodup ∧
    run12d.execd = [0, 0] := by
  have hrun : runSched (num_thread 1 2) 2 (initState 1 2 gDup) sched12
      = some run12d := rfl
  have hr : Reach 1 2 gDup run12d :=
    reach_of_run (num_thread 1 2) 2 sched12 _ _ hrun
  refine ⟨hr, rfl, ?_, rfl⟩
  rw [show run12d.claims = [(0, 0), (1, 0)] from rfl]
  decide

/-- C7 counterexample: "each created worker executes exactly one iteration"
fails for `N = 2, ThreadCount = 4`: in the `sched24` interleaving — where the
uninitialized queues 2 and 3 happen to read as empty unlocked queues, the
most benign possible stack contents — worker 0 steals worker 1's only
iteration, so the dispatch terminates with `completed 0 = 2` and
`completed 1 = 0`. -/
theorem C7_counterexample :
    ¬ (∀ N T : Nat, 0 < N → N < T → ∀ g s, Reach N T g s →
        Terminal (num_thread N T) T s →
        ∀ w, w < num_thread N T → s.completed w = 1) := by
  intro hclaim
  have hrun : runSched (num_thread 2 4) 4 (initState 2 4 gZero) sched24
      = some run24 := rfl
  have hr : Reach 2 4 gZero run24 :=
    reach_of_run (num_thread 2 4) 4 sched24 _ _ hrun
  have ht : Terminal (num_thread 2 4) 4 run24 := by
    intro w hw
    have hn : num_thread 2 4 = 2 := rfl
    rw [hn] at hw
    have : w = 0 ∨ w = 1 := by omega
    rcases this with rfl | rfl <;> rfl
  have h := hclaim 2 4 (by omega) (by omega) gZero run24 hr ht 1 (by decide)
  have h2 : run24.completed 1 = 0 := rfl
  rw [h2] at h
  cases h

/-- C7 amended: for `0 < N < ThreadCount`, `ChunkSize` is set to 1 and
`num_thread` to `N` (so exactly `N` worker threads are created), and each
created worker's queue initially holds exactly one iteration; but a created
worker need not execute exactly one iteration: stealing may redistribute the
iterations (and the Phase B scan moreover reads the uninitialized queues
`[num_thread, ThreadCount)` in this regime — see C1), so an individual
worker may complete zero or several iterations. -/
theorem C7_amended_small_N (N T : Nat) (h1 : 0 < N) (h2 : N < T) :
    ChunkSize N T = 1 ∧ num_thread N T = N ∧
    (∀ i, i < num_thread N T → init_last N T i = init_next N T i + 1) := by
  have hdiv : N / T = 0 := Nat.div_eq_of_lt h2
  have hC : ChunkSize N T = 1 := by
    unfold ChunkSize
    simp [hdiv]
  have hn : num_thread N T = N := by
    unfold num_thread
    simp [hdiv]
  refine ⟨hC, hn, ?_⟩
  intro i hi
  unfold init_last init_next
  rw [hC]
  by_cases hiN : i = num_thread N T - 1
  · rw [if_pos hiN]
    rw [hn] at hiN
    rw [hn] at hi
    subst hiN
    push_cast
    omega
  · rw [if_neg hiN]
    push_cast
    ring

theorem C7_witness :
    ChunkSize 2 4 = 1 ∧ num_thread 2 4 = 2 ∧
    (∀ i, i < num_thread 2 4 → init_last 2 4 i = init_next 2 4 i + 1) :=
  C7_amended_small_N 2 4 (by omega) (by omega)

/-- C8 (code bug): the worker routine does NOT terminate for every dispatch.
The Phase B scan bound is the stored `common.num_thread = ThreadCount` (line
129, before the line-143 overwrite), so for `0 < N < ThreadCount` the scan
calls `Lock()` on uninitialized queues.  At `ThreadCount = 2, N = 1` with the
uninitialized `workqueues[1]` reading a nonzero lock word, worker 0 executes
its single iteration and then spins forever in `Lock()` on queue 1: after
the 8 scheduled steps no worker can act any more (`Terminal`), yet worker 0
is still at the lock acquisition — the routine never returns, and the
dispatcher hangs in `pthread_join`.  Under the intended scan bound
`num_thread` termination is proved in `no_infinite_run`, and every terminal
state has all workers done with all queues empty (`terminal_all_done`,
`terminal_coverage`); the early store at line 129 is the slip. -/
theorem C8_nontermination_bug :
    Reach 1 2 gLock runHang ∧
    Terminal (num_thread 1 2) 2 runHang ∧
    runHang.pcs 0 = PC.bAcq false 1 ∧
    runHang.pcs 0 ≠ PC.wDone := by
  have hrun : runSched (num_thread 1 2) 2 (initState 1 2 gLock) schedHang
      = some runHang := rfl
  have hr : Reach 1 2 gLock runHang :=
    reach_of_run (num_thread 1 2) 2 schedHang _ _ hrun
  have ht : Terminal (num_thread 1 2) 2 runHang := by
    intro w hw
    have hn : num_thread 1 2 = 1 := rfl
    rw [hn] at hw
    have hw0 : w = 0 := by omega
    subst hw0
    rfl
  refine ⟨hr, ht, rfl, ?_⟩
  rw [show runHang.pcs 0 = PC.bAcq false 1 from rfl]
  intro hcon
  cases hcon

/-- Lock discipline under the intended scan bound (`scanN = num_thread`): in
any state satisfying the invariant each worker holds at most one queue lock;
a worker about to invoke `_do_work` (holding an in-flight item) holds none,
so every lock acquired in Phase A or Phase B is released before `_do_work`;
a queue's lock bit is set exactly when a unique worker is inside that queue's
critical section; and while some worker has not finished, some worker can
act. -/
theorem lock_discipline (N T : Nat) (s : DispatchState) (h : DInv N T s) :
    (∀ w, w < num_thread N T → ∀ i i', holdsLock (s.pcs w) w i →
      holdsLock (s.pcs w) w i' → i = i') ∧
    (∀ w, w < num_thread N T → inflight (s.pcs w) ≠ 0 →
      ∀ i, ¬ holdsLock (s.pcs w) w i) ∧
    (∀ i, i < num_thread N T →
      ((s.workqueues i).lock = true ↔
        ∃ u, u < num_thread N T ∧ holdsLock (s.pcs u) u i)) ∧
    (∀ i u u', u < num_thread N T → u' < num_thread N T →
      holdsLock (s.pcs u) u i → holdsLock (s.pcs u') u' i → u = u') ∧
    (∀ w, w < num_thread N T → s.pcs w ≠ PC.wDone →
      ∃ u, u < num_thread N T ∧
        ufunc_worker_step (num_thread N T) (num_thread N T) s u ≠ none) := by
  refine ⟨?_, ?_, h.lockIff, h.lockUniq, ?_⟩
  · intro w hw i i' h1 h2
    rcases holdsLock_elim h1 with ⟨hpc1, hi1⟩ | ⟨c1, j1, hpc1, hi1⟩
    · rcases holdsLock_elim h2 with ⟨hpc2, hi2⟩ | ⟨c2, j2, hpc2, hi2⟩
      · rw [hi1, hi2]
      · rw [hpc1] at hpc2
        cases hpc2
    · rcases holdsLock_elim h2 with ⟨hpc2, hi2⟩ | ⟨c2, j2, hpc2, hi2⟩
      · rw [hpc1] at hpc2
        cases hpc2
      · rw [hpc1] at hpc2
        injection hpc2 with e1 e2
        rw [hi1, hi2, e2]
  · intro w hw hinf i hold
    rcases holdsLock_elim hold with ⟨hpc1, hh⟩ | ⟨c1, j1, hpc1, hh⟩
    · rw [hpc1] at hinf
      exact hinf rfl
    · rw [hpc1] at hinf
      exact hinf rfl
  · intro w hw hnd
    cases hpc : s.pcs w
    case wDone => exact absurd hpc hnd
    case aLock =>
      by_cases hlock : (s.workqueues w).lock = true
      · obtain ⟨u, hu, hold⟩ := (h.lockIff w hw).mp hlock
        rcases holdsLock_elim hold with ⟨hpcu, hh⟩ | ⟨c, j, hpcu, hh⟩
        · exact ⟨u, hu, step_ne_none_of_aCrit _ _ s u hu hpcu⟩
        · exact ⟨u, hu, step_ne_none_of_bCrit _ _ s u c j hu hpcu⟩
      · refine ⟨w, hw, ?_⟩
        intro hcon
        unfold ufunc_worker_step at hcon
        rw [if_pos hw] at hcon
        simp only [hpc] at hcon
        rw [if_neg hlock] at hcon
        cases hcon
    case aCrit => exact ⟨w, hw, step_ne_none_of_aCrit _ _ s w hw hpc⟩
    case aWork item =>
      refine ⟨w, hw, ?_⟩
      intro hcon
      unfold ufunc_worker_step at hcon
      rw [if_pos hw] at hcon
      simp only [hpc] at hcon
      cases hcon
    case bLoop c =>
      refine ⟨w, hw, ?_⟩
      intro hcon
      unfold ufunc_worker_step at hcon
      rw [if_pos hw] at hcon
      simp only [hpc] at hcon
      split at hcon <;> cases hcon
    case bFor c j =>
      refine ⟨w, hw, ?_⟩
      intro hcon
      unfold ufunc_worker_step at hcon
      rw [if_pos hw] at hcon
      simp only [hpc] at hcon
      split at hcon
      · cases hcon
      · split at hcon <;> cases hcon
    case bAcq c j =>
      by_cases hlock : (s.workqueues j).lock = true
      · obtain ⟨hjn, hjw⟩ := h.acqBound w hw c j (Or.inl hpc)
        obtain ⟨u, hu, hold⟩ := (h.lockIff j hjn).mp hlock
        rcases holdsLock_elim hold with ⟨hpcu, hh⟩ | ⟨c0, j0, hpcu, hh⟩
        · exact ⟨u, hu, step_ne_none_of_aCrit _ _ s u hu hpcu⟩
        · exact ⟨u, hu, step_ne_none_of_bCrit _ _ s u c0 j0 hu hpcu⟩
      · refine ⟨w, hw, ?_⟩
        intro hcon
        unfold ufunc_worker_step at hcon
        rw [if_pos hw] at hcon
        simp only [hpc] at hcon
        rw [if_neg hlock] at hcon
        cases hcon
    case bCrit c j => exact ⟨w, hw, step_ne_none_of_bCrit _ _ s w c j hw hpc⟩
    case bWork j item =>
      refine ⟨w, hw, ?_⟩
      intro hcon
      unfold ufunc_worker_step at hcon
      rw [if_pos hw] at hcon
      simp only [hpc] at hcon
      cases hcon

/-- C9 (code bug): permanent blocking IS possible.  The Phase B scan calls
`Lock()` on every queue in `[0, common.num_thread) = [0, ThreadCount)` (the
value stored at line 129, before the line-143 overwrite), including the
uninitialized ones.  At `ThreadCount = 2, N = 1` with the uninitialized
`workqueues[1]` reading a nonzero lock word, worker 0 spins forever on that
lock, which NO worker holds and which no one will ever release: worker 0 has
not finished (`pcs 0 ≠ wDone`), yet no worker can take a step.  The claim's
per-worker lock discipline (at most one lock, released before `_do_work`)
and the impossibility of blocking under the intended scan bound are proved
in `lock_discipline`; the early store at line 129 is the slip. -/
theorem C9_blocked_forever_bug :
    Reach 1 2 gLock runHang ∧
    runHang.pcs 0 = PC.bAcq false 1 ∧
    (runHang.workqueues 1).lock = true ∧
    (∀ u, u < num_thread 1 2 → ¬ holdsLock (runHang.pcs u) u 1) ∧
    (∀ u, u < num_thread 1 2 →
      ufunc_worker_step (num_thread 1 2) 2 runHang u = none) ∧
    runHang.pcs 0 ≠ PC.wDone := by
  have hrun : runSched (num_thread 1 2) 2 (initState 1 2 gLock) schedHang
      = some runHang := rfl
  have hr : Reach 1 2 gLock runHang :=
    reach_of_run (num_thread 1 2) 2 schedHang _ _ hrun
  refine ⟨hr, rfl, rfl, ?_, ?_, ?_⟩
  · intro u hu
    have hn : num_thread 1 2 = 1 := rfl
    rw [hn] at hu
    have hu0 : u = 0 := by omega
    subst hu0
    rw [show runHang.pcs 0 = PC.bAcq false 1 from rfl]
    intro hcon
    exact hcon
  · intro u hu
    have hn : num_thread 1 2 = 1 := rfl
    rw [hn] at hu
    have hu0 : u = 0 := by omega
    subst hu0
    rfl
  · rw [show runHang.pcs 0 = PC.bAcq false 1 from rfl]
    intro hcon
    cases hcon

/-- C10 (code bug): the overshoot analysis holds for the queues the
dispatcher initialized, but "no index outside the queue's initially assigned
range is ever claimed" is false of the generated code: the Phase B scan runs
over `[0, common.num_thread) = [0, ThreadCount)` (stored at line 129, before
the line-143 overwrite), and a steal from an uninitialized queue claims
whatever its garbage bounds contain.  At `ThreadCount = 2, N = 1` with the
uninitialized `workqueues[1]` reading `next = 5, last = 6, lock = 0`, worker
0's claim record ends as `[(0, 0), (1, 5)]`: index 5 lies outside the only
assigned range `[0, 1)`, and its source queue 1 is itself outside
`[0, num_thread)`.  Under the intended scan bound, both the overshoot
property and in-range claiming are invariants (fields `phaseB` and
`claimsSrc` of `DInv`, established by `inv_reach`); the early store at line
129 is the slip. -/
theorem C10_out_of_range_claim_bug :
    Reach 1 2 gSteal run12 ∧
    run12.claims = [(0, 0), (1, 5)] ∧
    (∀ i, i < num_thread 1 2 →
      ¬ (init_next 1 2 i ≤ (5 : Int) ∧ (5 : Int) < init_last 1 2 i)) ∧
    ¬ ((1 : Nat) < num_thread 1 2) := by
  have hrun : runSched (num_thread 1 2) 2 (initState 1 2 gSteal) sched12
      = some run12 := rfl
  have hr : Reach 1 2 gSteal run12 :=
    reach_of_run (num_thread 1 2) 2 sched12 _ _ hrun
  refine ⟨hr, rfl, ?_, by decide⟩
  intro i hi
  have hn : num_thread 1 2 = 1 := rfl
  rw [hn] at hi
  have hi0 : i = 0 := by omega
  subst hi0
  intro hcon
  have h1 : init_last 1 2 0 = (1 : Int) := by decide
  rw [h1] at hcon
  omega

-- sanity checks of the embedding on the spec's S4/S5 scenarios
example : ChunkSize 16 4 = 4 := by decide
example : ChunkSize 17 4 = 4 := by decide
example : num_thread 17 4 = 4 := by decide
example : num_thread 3 4 = 3 := by decide
example : num_thread 0 4 = 0 := by decide
example : init_last 17 4 3 = 17 := by decide
example : init_last 16 4 1 = 8 := by decide
